import Mathlib

/-!
NVMEM layout driver for Adtran mfginfo (`drivers/nvmem/layouts/adtran.c`)

A shallow embedding of the two functions of the driver that carry logic:

* `adtran_mac_address_pp`, the read post-processor of the `MFG_MAC` cell;
* `adtran_add_cells`, the scan of the 1024-byte `mfginfo` buffer that
  registers one nvmem cell per `KEY=VALUE` line.

Bytes are natural numbers (`char` is unsigned in kernel builds, so a byte
is a value in `0..255`), C `int` values are integers, and a pointer into a
buffer is the index of the byte it points to.
-/

namespace Adtran

/-! ## Constants -/

/-- Errno value `EINVAL`. -/
def EINVAL : Int := 22

/-- Errno value `EIO`. -/
def EIO : Int := 5

/-- Errno value `ENOENT`. -/
def ENOENT : Int := 2

/-! ## `adtran_mac_address_pp` -/

/-- The digit of `macaddr[16]` computed by the `if / else if` chain at the
top of `adtran_mac_address_pp`; `none` is the final `else` (`return -EINVAL`). -/
def mac_digit (m : Nat) : Option Nat :=
  if 48 ≤ m ∧ m ≤ 57 then some (m - 48)
  else if 97 ≤ m ∧ m ≤ 102 then some (m - 97 + 10)
  else if 65 ≤ m ∧ m ≤ 70 then some (m - 65 + 10)
  else none

/-- The function `adtran_mac_address_pp(priv, id, index, offset, buf, bytes)`.
The arguments `priv`, `id` and `offset` are not used by the C function and
are left out.  The result is the return code and the buffer afterwards;
`none` means that `macaddr[16]` lies outside the buffer handed in. -/
def adtran_mac_address_pp (index : Int) (buf : List Nat) (bytes : Nat) :
    Option (Int × List Nat) :=
  if bytes ≠ 17 then some (-EINVAL, buf)
  else
    match buf[16]? with
    | none => none
    | some m =>
      match mac_digit m with
      | none => some (-EINVAL, buf)
      | some digit =>
        if index < 0 ∨ index > 15 - (digit : Int) then some (-EINVAL, buf)
        else
          -- `digit += index` on an `unsigned char`
          let digit1 := (((digit : Int) + index) % 256).toNat
          if digit1 < 10 then some (0, buf.set 16 ((digit1 + 48) % 256))
          else some (0, buf.set 16 ((digit1 - 10 + 97) % 256))

/-! ## `adtran_add_cells`

The buffer `char mfginfo[1024]` is the first 1024 bytes of a list of bytes
`mem`; what follows in the list is the memory that lies behind the array.
The C code walks the buffer with `strchr`, which stops at a NUL byte and not
at the end of the array, so a search can read behind the array: the model
keeps those reads (they see the bytes of `mem` behind index 1023), and ends
the run with `Status.fault` when a read leaves `mem` or a write leaves the
array. -/

/-- Size of the local array: `sizeof(mfginfo)`. -/
def MFGINFO_SIZE : Nat := 1024

/-- The bytes of the string literal `"MFG_MAC"`. -/
def MFG_MAC : List Nat := [77, 70, 71, 95, 77, 65, 67]

/-- The descriptor `struct nvmem_cell_info` as far as the driver fills it:
`name` is the C string `info.name` points to when the descriptor is handed to
`nvmem_add_one_cell`, `read_post_process` tells whether the field holds
`adtran_mac_address_pp` (`true`) or is still NULL from the `memset`, and `np`
is the node `of_get_child_by_name` returned, if any. -/
structure nvmem_cell_info where
  name : List Nat
  offset : Nat
  bytes : Nat
  read_post_process : Bool
  np : Option Nat
deriving DecidableEq

/-- How a run ends: with a return code, by an access outside the memory
(undefined behaviour in C), or because the model ran out of loop fuel. -/
inductive Status where
  | ret (code : Int)
  | fault
  | fuel
deriving DecidableEq

/-- Outcome of `adtran_add_cells`: the cells registered with the nvmem core in
order, how the call ended, and the bytes of `mfginfo` (and behind it) at that
point. -/
structure Result where
  cells : List nvmem_cell_info
  status : Status
  mfginfo : List Nat
deriving DecidableEq

/-- Modelled from the spec: `tolower` of `linux/ctype.h`, which is not among
the source files. The specification says "lower-case every character"; the
upper-case letters `A`..`Z` go to `a`..`z` and every other byte stays. What is
proved about names below is about keys of ASCII bytes. -/
def tolower (b : Nat) : Nat :=
  if 65 ≤ b ∧ b ≤ 90 then b + 32 else b

/-- Result of a `strchr` call: a pointer to the first occurrence, NULL when the
terminating NUL comes first, or a fault when the search leaves the memory
before meeting either. -/
inductive Find where
  | found (i : Nat)
  | null
  | fault
deriving DecidableEq

/-- The search loop of the library function `strchr` over the bytes that start
at index `i`: `for (; *s != (char)c; ++s) if (*s == 0) return NULL; return s;`. -/
def strchr_from : List Nat → Nat → Nat → Find
  | [], _, _ => Find.fault
  | b :: rest, ch, i =>
    if b = ch then Find.found i
    else if b = 0 then Find.null
    else strchr_from rest ch (i + 1)

/-- The call `strchr(s, ch)` with `s` pointing at index `s` of `mem`. -/
def strchr (mem : List Nat) (s ch : Nat) : Find :=
  strchr_from (mem.drop s) ch s

/-- The C string that starts at index `s` of `mem`: the bytes up to the first
NUL. -/
def cstr (mem : List Nat) (s : Nat) : List Nat :=
  (mem.drop s).takeWhile (fun b => b ≠ 0)

/-- One pass of the body of the `do ... while` loop on the byte `*p`:
`*p = tolower(*p); if (*p == '_') *p = '-';`. -/
def name_char (b : Nat) : Nat :=
  if tolower b = 95 then 45 else tolower b

/-- The loop `do { *p = tolower(*p); if (*p == '_') *p = '-'; } while (*++p);`
run on the bytes from `p` on, of which the first `room` lie inside `mfginfo`.
The result is these bytes afterwards; `none` when `*p` is written outside the
array or `*++p` is read outside the memory. -/
def name_loop : List Nat → Nat → Option (List Nat)
  | [], _ => none
  | _ :: _, 0 => none
  | b :: rest, room + 1 =>
    match rest with
    | [] => none
    | 0 :: _ => some (name_char b :: rest)
    | _ :: _ => (name_loop rest room).map (fun s => name_char b :: s)

/-- What one pass through the body of the `while` loop leads to: the next
pass, with the buffer, the cursor `c`, `ret` and the cells registered so far,
or the end of the loop. -/
inductive Step where
  | next (mem : List Nat) (c : Nat) (ret : Int) (cells : List nvmem_cell_info)
  | stop (r : Result)

/-- The code at the label `nextline`: `c = strchr(c, 0xa); if (!c) break; ++c;`. -/
def nextline (mem : List Nat) (c : Nat) (ret : Int)
    (cells : List nvmem_cell_info) : Step :=
  match strchr mem c 10 with
  | Find.found n => Step.next mem (n + 1) ret cells
  | Find.null => Step.stop ⟨cells, Status.ret ret, mem⟩
  | Find.fault => Step.stop ⟨cells, Status.fault, mem⟩

/-- One pass of `while (*c != 0xff) { ... }`, the loop test included.
`of_get_child_by_name` (a lookup by name under the layout node) and
`nvmem_add_one_cell` (the registration, given the cells registered so far, with
its return code) belong to the nvmem core and the device tree and are
parameters. -/
def loop_body (of_get_child_by_name : List Nat → Option Nat)
    (nvmem_add_one_cell : List nvmem_cell_info → nvmem_cell_info → Int)
    (mem : List Nat) (c : Nat) (ret : Int) (cells : List nvmem_cell_info) : Step :=
  match mem[c]? with
  | none => Step.stop ⟨cells, Status.fault, mem⟩
  | some b =>
    if b = 255 then Step.stop ⟨cells, Status.ret ret, mem⟩
    else if b = 35 then nextline mem c ret cells
    else
      match strchr mem c 61 with
      | Find.fault => Step.stop ⟨cells, Status.fault, mem⟩
      | Find.null => nextline mem c ret cells
      | Find.found e =>
        if MFGINFO_SIZE ≤ e then Step.stop ⟨cells, Status.fault, mem⟩
        else
          -- `*t = '\0'; ++t; info.offset = t - mfginfo;`
          let mem1 := mem.set e 0
          let t := e + 1
          -- `if (!strcmp(c, "MFG_MAC")) info.read_post_process = ...`
          let pp := decide (cstr mem1 c = MFG_MAC)
          match name_loop (mem1.drop c) (MFGINFO_SIZE - c) with
          | none => Step.stop ⟨cells, Status.fault, mem1⟩
          | some s =>
            let mem2 := mem1.take c ++ s
            -- `info.name = c; c = strchr(t, 0xa); if (!c) break;`
            match strchr mem2 t 10 with
            | Find.fault => Step.stop ⟨cells, Status.fault, mem2⟩
            | Find.null => Step.stop ⟨cells, Status.ret ret, mem2⟩
            | Find.found n =>
              let name := cstr mem2 c
              let info : nvmem_cell_info :=
                ⟨name, t, n - t, pp, of_get_child_by_name name⟩
              let r := nvmem_add_one_cell cells info
              if r ≠ 0 then Step.stop ⟨cells, Status.ret r, mem2⟩
              else Step.next mem2 (n + 1) r (cells ++ [info])

/-- The `while` loop, at most `fuel` passes. -/
def while_loop (of_get_child_by_name : List Nat → Option Nat)
    (nvmem_add_one_cell : List nvmem_cell_info → nvmem_cell_info → Int) :
    Nat → List Nat → Nat → Int → List nvmem_cell_info → Result
  | 0, mem, _, _, cells => ⟨cells, Status.fuel, mem⟩
  | fuel + 1, mem, c, ret, cells =>
    match loop_body of_get_child_by_name nvmem_add_one_cell mem c ret cells with
    | Step.stop r => r
    | Step.next mem1 c1 ret1 cells1 =>
      while_loop of_get_child_by_name nvmem_add_one_cell fuel mem1 c1 ret1 cells1

/-- The function `adtran_add_cells(dev, nvmem, layout)`. The collaborators are
parameters: `nvmem_device_read` is the return value of the read of
`sizeof(mfginfo)` bytes and `mem` the bytes of `mfginfo` (and behind it) after
that read, `layout_np` tells whether `of_nvmem_layout_get_container` returned a
node, and the other two are as in `loop_body`. The cursor moves forward in
every pass, so `mem.length + 1` passes are enough for any run. -/
def adtran_add_cells (nvmem_device_read : Int) (layout_np : Bool)
    (of_get_child_by_name : List Nat → Option Nat)
    (nvmem_add_one_cell : List nvmem_cell_info → nvmem_cell_info → Int)
    (mem : List Nat) : Result :=
  if nvmem_device_read < 0 then ⟨[], Status.ret nvmem_device_read, mem⟩
  else if nvmem_device_read ≠ (MFGINFO_SIZE : Int) then ⟨[], Status.ret (- EIO), mem⟩
  else if layout_np = false then ⟨[], Status.ret (-ENOENT), mem⟩
  else
    while_loop of_get_child_by_name nvmem_add_one_cell (mem.length + 1) mem 0
      nvmem_device_read []

/-! ## Reference notions used to state the properties of the post-processor -/

/-- Value of a hexadecimal digit character `[0-9a-fA-F]`, as the specification
words it; `none` for every other byte. -/
def hex_value (b : Nat) : Option Nat :=
  if 48 ≤ b ∧ b ≤ 57 then some (b - 48)
  else if 97 ≤ b ∧ b ≤ 102 then some (b - 87)
  else if 65 ≤ b ∧ b ≤ 70 then some (b - 55)
  else none

/-- The hex-digit character of a value `0..15`: `'0'..'9'` for 0-9 and
lower-case `'a'..'f'` for 10-15. -/
def hex_char (d : Nat) : Nat :=
  if d < 10 then 48 + d else 97 + (d - 10)

/-- The 17 bytes of the string `00:11:22:33:44:5` followed by the byte `last`. -/
def mac_sample (last : Nat) : List Nat :=
  [48, 48, 58, 49, 49, 58, 50, 50, 58, 51, 51, 58, 52, 52, 58, 53, last]

/-! ## Reference notions used to state the properties of the scan -/

/-- A line of the manufacturing-info text: a comment `#text\n` or a pair
`KEY=VALUE\n`. -/
inductive Line where
  | comment (text : List Nat)
  | kv (key value : List Nat)
deriving DecidableEq

/-- The bytes of a line as stored: `#`, the text and `0x0A`, or the key, `=`,
the value and `0x0A`. -/
def Line.bytes : Line → List Nat
  | Line.comment text => 35 :: (text ++ [10])
  | Line.kv key value => key ++ 61 :: (value ++ [10])

/-- The bytes of a sequence of lines, one after the other. -/
def lines_bytes : List Line → List Nat
  | [] => []
  | l :: ls => l.bytes ++ lines_bytes ls

/-- The bytes a line has turned into once the scan has passed it: a comment is
untouched, the key of a pair is normalized and its `=` overwritten by NUL. -/
def Line.scanned : Line → List Nat
  | Line.comment text => 35 :: (text ++ [10])
  | Line.kv key value => key.map name_char ++ 0 :: (value ++ [10])

/-- The bytes of a sequence of lines once the scan has passed them. -/
def lines_scanned : List Line → List Nat
  | [] => []
  | l :: ls => l.scanned ++ lines_scanned ls

/-- A line the scan reads as one line: the text of a comment and the value of
a pair hold no `0x0A` and no NUL; the key of a pair is not empty, holds no NUL
and no `=`, and does not start with `#` or with the sentinel `0xFF`. -/
def Line.wf : Line → Prop
  | Line.comment text => ∀ b ∈ text, b ≠ 10 ∧ b ≠ 0
  | Line.kv key value =>
    key ≠ [] ∧ (∀ b ∈ key, b ≠ 61 ∧ b ≠ 0) ∧ key.head? ≠ some 35 ∧
      key.head? ≠ some 255 ∧ ∀ b ∈ value, b ≠ 10 ∧ b ≠ 0

/-- The descriptors the lines stand for when the first of them starts at index
`pos`: per pair the normalized key, the index just after `=`, the length of the
value, the post-processor exactly for the key `MFG_MAC`, and the node found
under the normalized name. -/
def line_cells (of_get_child_by_name : List Nat → Option Nat) :
    Nat → List Line → List nvmem_cell_info
  | _, [] => []
  | pos, Line.comment text :: ls =>
    line_cells of_get_child_by_name (pos + (text.length + 2)) ls
  | pos, Line.kv key value :: ls =>
    ⟨key.map name_char, pos + key.length + 1, value.length, decide (key = MFG_MAC),
      of_get_child_by_name (key.map name_char)⟩
      :: line_cells of_get_child_by_name (pos + (key.length + value.length + 2)) ls

/-- The value of `ret` after the lines: 0 once a pair has been registered. -/
def lines_ret (ret : Int) (ls : List Line) : Int :=
  if ls.any (fun l => match l with | Line.kv _ _ => true | Line.comment _ => false)
  then 0 else ret

/-- The lines of the shape the first property of the scan speaks of: the text of
a comment holds no `0x0A` and no NUL; a key is not empty, is made of printable
ASCII other than `=` and does not start with `#`; a value holds no `0x0A` and
no NUL. -/
def Line.plain : Line → Prop
  | Line.comment text => ∀ b ∈ text, b ≠ 10 ∧ b ≠ 0
  | Line.kv key value =>
    key ≠ [] ∧ (∀ b ∈ key, 32 ≤ b ∧ b ≤ 126 ∧ b ≠ 61) ∧ key.head? ≠ some 35 ∧
      ∀ b ∈ value, b ≠ 10 ∧ b ≠ 0

/-- The exposed name of a key in the words of the specification: every
character lower-cased, then every `_` replaced by `-`. -/
def normalized_name (key : List Nat) : List Nat :=
  (key.map tolower).map (fun b => if b = 95 then 45 else b)

/-- Name, offset and length of the cells the specification expects for lines
that start at index `pos`: one per pair, in order, with the normalized key, the
index of the byte just after `=`, and the number of bytes between that `=` and
the `0x0A` of the line. -/
def expected_cells : Nat → List Line → List (List Nat × Nat × Nat)
  | _, [] => []
  | pos, Line.comment text :: ls => expected_cells (pos + (text.length + 2)) ls
  | pos, Line.kv key value :: ls =>
    (normalized_name key, pos + key.length + 1, value.length)
      :: expected_cells (pos + (key.length + value.length + 2)) ls

/-- The keys of the pairs among the lines, in order. -/
def line_keys : List Line → List (List Nat)
  | [] => []
  | Line.comment _ :: ls => line_keys ls
  | Line.kv key _ :: ls => key :: line_keys ls

/-- The bytes of the name `mfg-mac`. -/
def mfg_mac_name : List Nat := [109, 102, 103, 45, 109, 97, 99]

/-- A buffer content of `MFGINFO_SIZE` bytes: the given text, padded with the
byte `pad`. -/
def padded (text : List Nat) (pad : Nat) : List Nat :=
  text ++ List.replicate (MFGINFO_SIZE - text.length) pad

/-! ## Properties of `adtran_mac_address_pp` -/

theorem mac_digit_eq_hex_value (b : Nat) : mac_digit b = hex_value b := by
  unfold mac_digit hex_value
  split_ifs <;> simp <;> omega

theorem hex_value_le (b d : Nat) (h : hex_value b = some d) : d ≤ 15 := by
  unfold hex_value at h
  split_ifs at h <;> simp at h <;> omega

/-- Closed form of the post-processor on a 17-byte call whose last byte is a
hex digit and whose index is in range. -/
theorem pp_in_range (buf : List Nat) (b d : Nat) (index : Int)
    (hb : buf[16]? = some b) (hd : hex_value b = some d)
    (h0 : 0 ≤ index) (h1 : index ≤ 15 - (d : Int)) :
    adtran_mac_address_pp index buf 17
      = some (0, buf.set 16 (hex_char (d + index.toNat))) := by
  have hle := hex_value_le b d hd
  have hdig : mac_digit b = some d := by rw [mac_digit_eq_hex_value]; exact hd
  obtain ⟨n, rfl⟩ := Int.eq_ofNat_of_zero_le h0
  have hn : d + n ≤ 15 := by omega
  have hmod : (((d : Int) + (n : Int)) % 256).toNat = d + n := by omega
  unfold adtran_mac_address_pp
  simp only [ne_eq, not_true_eq_false, if_false, hb, hdig]
  have hcond : ¬ ((n : Int) < 0 ∨ (n : Int) > 15 - (d : Int)) := by omega
  rw [if_neg hcond]
  simp only [hmod, Int.toNat_ofNat]
  unfold hex_char
  by_cases hlt : d + n < 10
  · rw [if_pos hlt, if_pos hlt]
    have : (d + n + 48) % 256 = 48 + (d + n) := by omega
    rw [this]
  · rw [if_neg hlt, if_neg hlt]
    have : (d + n - 10 + 97) % 256 = 97 + (d + n - 10) := by omega
    rw [this]

/-- Closed form of the post-processor on a 17-byte call whose last byte is a
hex digit and whose index is out of range. -/
theorem pp_out_of_range (buf : List Nat) (b d : Nat) (index : Int)
    (hb : buf[16]? = some b) (hd : hex_value b = some d)
    (h : index < 0 ∨ index > 15 - (d : Int)) :
    adtran_mac_address_pp index buf 17 = some (-EINVAL, buf) := by
  have hdig : mac_digit b = some d := by rw [mac_digit_eq_hex_value]; exact hd
  unfold adtran_mac_address_pp
  simp only [ne_eq, not_true_eq_false, if_false, hb, hdig]
  rw [if_pos h]

theorem pp_bad_digit (buf : List Nat) (b : Nat) (index : Int)
    (hb : buf[16]? = some b) (hd : hex_value b = none) :
    adtran_mac_address_pp index buf 17 = some (-EINVAL, buf) := by
  have hdig : mac_digit b = none := by rw [mac_digit_eq_hex_value]; exact hd
  unfold adtran_mac_address_pp
  simp only [ne_eq, not_true_eq_false, if_false, hb, hdig]

theorem pp_bad_length (buf : List Nat) (bytes : Nat) (index : Int) (h : bytes ≠ 17) :
    adtran_mac_address_pp index buf bytes = some (-EINVAL, buf) := by
  unfold adtran_mac_address_pp
  rw [if_pos h]

theorem hex_value_hex_char (n : Nat) (h : n ≤ 15) : hex_value (hex_char n) = some n := by
  unfold hex_value hex_char
  split_ifs <;> first | omega | (congr 1; omega)

/-- Claim C2: on a 17-byte buffer whose byte 16 is a hex digit of value `d`,
with `0 ≤ index ≤ 15 - d`, the post-processor returns 0 and leaves in byte 16
the hex-digit character of `d + index`, `'0'..'9'` or lower-case `'a'..'f'`. -/
theorem mac_pp_derives_digit (buf : List Nat) (b d : Nat) (index : Int)
    (hlen : buf.length = 17) (hb : buf[16]? = some b) (hd : hex_value b = some d)
    (h0 : 0 ≤ index) (h1 : index ≤ 15 - (d : Int)) :
    ∃ out, adtran_mac_address_pp index buf 17 = some (0, out) ∧ out.length = 17 ∧
      out[16]? = some (hex_char (d + index.toNat)) ∧
      hex_char (d + index.toNat)
        = (if d + index.toNat < 10 then 48 + (d + index.toNat)
           else 97 + (d + index.toNat - 10)) := by
  refine ⟨buf.set 16 (hex_char (d + index.toNat)), pp_in_range buf b d index hb hd h0 h1, ?_, ?_, ?_⟩
  · simp [hlen]
  · rw [List.getElem?_set_self (by omega)]
  · rfl

theorem mac_pp_derives_digit_witness :
    ∃ out, adtran_mac_address_pp 15 (mac_sample 48) 17 = some (0, out) ∧ out.length = 17 ∧
      out[16]? = some (hex_char (0 + (15 : Int).toNat)) ∧
      hex_char (0 + (15 : Int).toNat)
        = (if 0 + (15 : Int).toNat < 10 then 48 + (0 + (15 : Int).toNat)
           else 97 + (0 + (15 : Int).toNat - 10)) :=
  mac_pp_derives_digit (mac_sample 48) 48 0 15 (by decide) (by decide) (by decide)
    (by decide) (by decide)

/-- Claim C3: on a 17-byte buffer whose byte 16 is a hex digit of value `d`, the
post-processor returns the error `-EINVAL` exactly when `index < 0` or
`index > 15 - d`, whatever the integer `index` is; every negative index fails;
and a call that does not fail returns 0 with bytes 0 to 15 as they were and a
last digit of value `d + index`, at most 15: no wrap and no carry. -/
theorem mac_pp_range_error (buf : List Nat) (b d : Nat) (index : Int)
    (hlen : buf.length = 17) (hb : buf[16]? = some b) (hd : hex_value b = some d) :
    ∃ r out, adtran_mac_address_pp index buf 17 = some (r, out) ∧
      (r = -EINVAL ↔ (index < 0 ∨ index > 15 - (d : Int))) ∧
      (index < 0 → r = -EINVAL) ∧
      (r ≠ -EINVAL → r = 0 ∧ out.take 16 = buf.take 16 ∧
        ∃ m, out[16]? = some m ∧ hex_value m = some (d + index.toNat) ∧
          d + index.toNat ≤ 15 ∧ ((d + index.toNat : Nat) : Int) = (d : Int) + index) := by
  by_cases h : index < 0 ∨ index > 15 - (d : Int)
  · refine ⟨-EINVAL, buf, pp_out_of_range buf b d index hb hd h, ?_, ?_, ?_⟩
    · simp [h]
    · intro _; rfl
    · intro hne; exact absurd rfl hne
  · have h0 : 0 ≤ index := by omega
    have h1 : index ≤ 15 - (d : Int) := by omega
    have hn : d + index.toNat ≤ 15 := by omega
    refine ⟨0, buf.set 16 (hex_char (d + index.toNat)),
      pp_in_range buf b d index hb hd h0 h1, ?_, ?_, ?_⟩
    · simp [h, EINVAL]
    · intro hneg; omega
    · intro _
      refine ⟨rfl, ?_, hex_char (d + index.toNat), ?_, hex_value_hex_char _ hn, hn, ?_⟩
      · apply List.ext_getElem?
        intro i
        by_cases hi : i < 16
        · rw [List.getElem?_take_of_lt hi, List.getElem?_take_of_lt hi,
            List.getElem?_set_ne (by omega)]
        · rw [List.getElem?_take_eq_none (by omega), List.getElem?_take_eq_none (by omega)]
      · rw [List.getElem?_set_self (by omega)]
      · omega

theorem mac_pp_range_error_witness :
    ∃ r out, adtran_mac_address_pp 1 (mac_sample 102) 17 = some (r, out) ∧
      (r = -EINVAL ↔ ((1 : Int) < 0 ∨ (1 : Int) > 15 - ((15 : Nat) : Int))) ∧
      ((1 : Int) < 0 → r = -EINVAL) ∧
      (r ≠ -EINVAL → r = 0 ∧ out.take 16 = (mac_sample 102).take 16 ∧
        ∃ m, out[16]? = some m ∧ hex_value m = some (15 + (1 : Int).toNat) ∧
          15 + (1 : Int).toNat ≤ 15 ∧ ((15 + (1 : Int).toNat : Nat) : Int) = ((15 : Nat) : Int) + 1) :=
  mac_pp_range_error (mac_sample 102) 102 15 1 (by decide) (by decide) (by decide)

/-- Claim C4: for every buffer, length and index the post-processor returns the
format error `-EINVAL` (and leaves the buffer alone) when `bytes` is not 17, and
when `bytes` is 17 and byte 16 is not a hex digit `[0-9a-fA-F]`. -/
theorem mac_pp_format_error (buf : List Nat) (bytes : Nat) (index : Int) :
    (bytes ≠ 17 → adtran_mac_address_pp index buf bytes = some (-EINVAL, buf)) ∧
    (∀ b, buf[16]? = some b → hex_value b = none →
      adtran_mac_address_pp index buf 17 = some (-EINVAL, buf)) :=
  ⟨pp_bad_length buf bytes index, fun b hb hd => pp_bad_digit buf b index hb hd⟩

theorem mac_pp_format_error_witness :
    adtran_mac_address_pp 0 (mac_sample 48) 16 = some (-EINVAL, mac_sample 48) ∧
    adtran_mac_address_pp 3 (mac_sample 103) 17 = some (-EINVAL, mac_sample 103) :=
  ⟨(mac_pp_format_error (mac_sample 48) 16 0).1 (by decide),
   (mac_pp_format_error (mac_sample 103) 17 3).2 103 (by decide) (by decide)⟩

/-- Every successful call works on a 17-byte call with a hex digit in byte 16
and an index in range. -/
theorem pp_success_inv (buf out : List Nat) (bytes : Nat) (index : Int)
    (h : adtran_mac_address_pp index buf bytes = some (0, out)) :
    bytes = 17 ∧ ∃ b d, buf[16]? = some b ∧ hex_value b = some d ∧ 0 ≤ index ∧
      index ≤ 15 - (d : Int) := by
  by_cases hbytes : bytes = 17
  · subst hbytes
    refine ⟨rfl, ?_⟩
    cases hb : buf[16]? with
    | none => simp [adtran_mac_address_pp, hb] at h
    | some b =>
      cases hd : hex_value b with
      | none =>
        rw [pp_bad_digit buf b index hb hd] at h
        simp [EINVAL] at h
      | some d =>
        by_cases hr : index < 0 ∨ index > 15 - (d : Int)
        · rw [pp_out_of_range buf b d index hb hd hr] at h
          simp [EINVAL] at h
        · exact ⟨b, d, rfl, hd, by omega, by omega⟩
  · rw [pp_bad_length buf bytes index hbytes] at h
    simp [EINVAL] at h

/-- Claim C9: when a call on a 17-byte buffer returns 0, bytes 0 to 15 of the
buffer are as they were; only byte 16 can differ. -/
theorem mac_pp_keeps_prefix (buf out : List Nat) (index : Int)
    (hlen : buf.length = 17)
    (h : adtran_mac_address_pp index buf 17 = some (0, out)) :
    out.length = 17 ∧ ∀ i, i < 16 → out[i]? = buf[i]? := by
  obtain ⟨_, b, d, hb, hd, h0, h1⟩ := pp_success_inv buf out 17 index h
  rw [pp_in_range buf b d index hb hd h0 h1] at h
  have hout : out = buf.set 16 (hex_char (d + index.toNat)) := by
    simpa using h.symm
  subst hout
  refine ⟨by simp [hlen], ?_⟩
  intro i hi
  rw [List.getElem?_set_ne (by omega)]

theorem mac_pp_keeps_prefix_witness :
    (mac_sample 102).length = 17 ∧ ∀ i, i < 16 → (mac_sample 102)[i]? = (mac_sample 48)[i]? :=
  mac_pp_keeps_prefix (mac_sample 48) (mac_sample 102) 15 (by decide) (by decide)

/-- Claim C10, as stated, fails: with index 0 the buffer `00:11:22:33:44:5F` comes
back as `00:11:22:33:44:5f`, not unchanged. -/
theorem mac_pp_index_zero_upper_case_changes :
    adtran_mac_address_pp 0 (mac_sample 70) 17 = some (0, mac_sample 102) ∧
      mac_sample 102 ≠ mac_sample 70 := by
  decide

/-- Claim C10, amended: on a 17-byte buffer whose byte 16 is a hex digit, index 0
succeeds; the buffer comes back unchanged when that digit is one of `[0-9a-f]`,
and with byte 16 replaced by its lower-case letter (bytes 0 to 15 unchanged)
when it is one of `[A-F]`. -/
theorem mac_pp_index_zero (buf : List Nat) (b d : Nat)
    (hlen : buf.length = 17) (hb : buf[16]? = some b) (hd : hex_value b = some d) :
    ((48 ≤ b ∧ b ≤ 57) ∨ (97 ≤ b ∧ b ≤ 102) →
      adtran_mac_address_pp 0 buf 17 = some (0, buf)) ∧
    (65 ≤ b ∧ b ≤ 70 →
      adtran_mac_address_pp 0 buf 17 = some (0, buf.set 16 (b + 32))) := by
  have hle := hex_value_le b d hd
  have hrun := pp_in_range buf b d 0 hb hd (le_refl 0) (by omega)
  have hset : buf.set 16 b = buf := by
    apply List.ext_getElem?
    intro i
    by_cases hi : i = 16
    · subst hi; rw [List.getElem?_set_self (by omega), hb]
    · rw [List.getElem?_set_ne (fun h => hi h.symm)]
  constructor
  · intro hcase
    have hc : hex_char (d + (0 : Int).toNat) = b := by
      unfold hex_value at hd
      unfold hex_char
      split_ifs at hd ⊢ <;> simp at hd ⊢ <;> omega
    rw [hrun, hc, hset]
  · intro hcase
    have hc : hex_char (d + (0 : Int).toNat) = b + 32 := by
      unfold hex_value at hd
      unfold hex_char
      split_ifs at hd ⊢ <;> simp at hd ⊢ <;> omega
    rw [hrun, hc]

theorem mac_pp_index_zero_witness :
    ((48 ≤ 48 ∧ 48 ≤ 57) ∨ (97 ≤ 48 ∧ 48 ≤ 102) →
      adtran_mac_address_pp 0 (mac_sample 48) 17 = some (0, mac_sample 48)) ∧
    (65 ≤ 48 ∧ 48 ≤ 70 →
      adtran_mac_address_pp 0 (mac_sample 48) 17 = some (0, (mac_sample 48).set 16 (48 + 32))) :=
  mac_pp_index_zero (mac_sample 48) 48 0 (by decide) (by decide) (by decide)

/-! ## The scan on well-formed lines -/

theorem strchr_from_skip (l rest : List Nat) (ch i : Nat)
    (h : ∀ b ∈ l, b ≠ ch ∧ b ≠ 0) :
    strchr_from (l ++ rest) ch i = strchr_from rest ch (i + l.length) := by
  induction l generalizing i with
  | nil => simp
  | cons a l ih =>
    have ha := h a (List.mem_cons_self a l)
    have hl : ∀ b ∈ l, b ≠ ch ∧ b ≠ 0 := fun b hb => h b (List.mem_cons_of_mem a hb)
    simp only [List.cons_append, strchr_from, if_neg ha.1, if_neg ha.2, List.length_cons]
    change strchr_from (l ++ rest) ch (i + 1) = _
    rw [ih _ hl]
    congr 1
    omega

theorem strchr_from_hit (rest : List Nat) (ch i : Nat) :
    strchr_from (ch :: rest) ch i = Find.found i := by
  simp [strchr_from]

theorem strchr_append_found (pre l rest : List Nat) (ch : Nat)
    (h : ∀ b ∈ l, b ≠ ch ∧ b ≠ 0) :
    strchr (pre ++ (l ++ ch :: rest)) pre.length ch = Find.found (pre.length + l.length) := by
  unfold strchr
  rw [List.drop_left, strchr_from_skip l _ ch _ h, strchr_from_hit]

theorem name_char_ne_zero (b : Nat) (h : b ≠ 0) : name_char b ≠ 0 := by
  unfold name_char tolower
  split_ifs <;> omega

theorem name_loop_cons_cons (a b : Nat) (l : List Nat) (room : Nat) :
    name_loop (a :: b :: l) (room + 1)
      = if b = 0 then some (name_char a :: b :: l)
        else (name_loop (b :: l) room).map (fun s => name_char a :: s) := by
  cases b with
  | zero => simp [name_loop]
  | succ b => simp [name_loop]

theorem name_loop_key (k rest : List Nat) (room : Nat) (hk : k ≠ [])
    (h0 : ∀ b ∈ k, b ≠ 0) (hroom : k.length ≤ room) :
    name_loop (k ++ 0 :: rest) room = some (k.map name_char ++ 0 :: rest) := by
  induction k generalizing room with
  | nil => exact absurd rfl hk
  | cons a k ih =>
    cases room with
    | zero => simp at hroom
    | succ room =>
      cases k with
      | nil => simp [name_loop_cons_cons]
      | cons b k =>
        have hb : b ≠ 0 := h0 b (by simp)
        have hk0 : ∀ x ∈ b :: k, x ≠ 0 := fun x hx => h0 x (List.mem_cons_of_mem a hx)
        have hr : (b :: k).length ≤ room := by simpa using hroom
        have := ih room (by simp) hk0 hr
        simp only [List.cons_append] at this ⊢
        rw [name_loop_cons_cons, if_neg hb, this]
        simp

theorem takeWhile_key (k rest : List Nat) (h0 : ∀ b ∈ k, b ≠ 0) :
    (k ++ 0 :: rest).takeWhile (fun b => b ≠ 0) = k := by
  induction k with
  | nil => simp
  | cons a k ih =>
    have ha : a ≠ 0 := h0 a (by simp)
    have hk : ∀ b ∈ k, b ≠ 0 := fun b hb => h0 b (List.mem_cons_of_mem a hb)
    simp only [List.cons_append, List.takeWhile_cons, ne_eq, ha, not_false_eq_true, decide_True, if_true]
    rw [ih hk]

theorem getElem?_at (pre rest : List Nat) (a : Nat) :
    (pre ++ a :: rest)[pre.length]? = some a := by
  rw [List.getElem?_append_right (Nat.le_refl _)]
  simp

theorem set_at (pre rest : List Nat) (x y : Nat) :
    (pre ++ x :: rest).set pre.length y = pre ++ y :: rest := by
  simp

theorem cstr_at (pre k rest : List Nat) (h0 : ∀ b ∈ k, b ≠ 0) :
    cstr (pre ++ (k ++ 0 :: rest)) pre.length = k := by
  unfold cstr
  rw [List.drop_left, takeWhile_key k rest h0]

/-- One pass of the loop with the cursor on a well-formed pair `KEY=VALUE\n`. -/
theorem loop_body_kv (child : List Nat → Option Nat)
    (add : List nvmem_cell_info → nvmem_cell_info → Int)
    (pre k v post : List Nat) (ret : Int) (cells : List nvmem_cell_info)
    (hwf : (Line.kv k v).wf) (hlen : pre.length + k.length < MFGINFO_SIZE) :
    loop_body child add (pre ++ (k ++ 61 :: (v ++ 10 :: post))) pre.length ret cells
      = (let info : nvmem_cell_info :=
            ⟨k.map name_char, pre.length + k.length + 1, v.length, decide (k = MFG_MAC),
              child (k.map name_char)⟩
         let mem2 := pre ++ (k.map name_char ++ 0 :: (v ++ 10 :: post))
         if add cells info ≠ 0 then Step.stop ⟨cells, Status.ret (add cells info), mem2⟩
         else Step.next mem2 (pre.length + (k.length + v.length + 2)) (add cells info)
                (cells ++ [info])) := by
  obtain ⟨hne, hkey, h35, h255, hval⟩ := hwf
  have hk61 : ∀ b ∈ k, b ≠ 61 ∧ b ≠ 0 := hkey
  have hk0 : ∀ b ∈ k, b ≠ 0 := fun b hb => (hkey b hb).2
  have hm0 : ∀ b ∈ k.map name_char, b ≠ 0 := by
    intro b hb
    obtain ⟨x, hx, rfl⟩ := List.mem_map.1 hb
    exact name_char_ne_zero x (hk0 x hx)
  obtain ⟨a, k1, rfl⟩ := List.exists_cons_of_ne_nil hne
  have ha35 : a ≠ 35 := by simpa using h35
  have ha255 : a ≠ 255 := by simpa using h255
  have hget : (pre ++ ((a :: k1) ++ 61 :: (v ++ 10 :: post)))[pre.length]? = some a := by
    rw [List.cons_append]; exact getElem?_at pre _ a
  have hfind : strchr (pre ++ ((a :: k1) ++ 61 :: (v ++ 10 :: post))) pre.length 61
      = Find.found (pre.length + (a :: k1).length) :=
    strchr_append_found pre (a :: k1) _ 61 hk61
  have hset : (pre ++ ((a :: k1) ++ 61 :: (v ++ 10 :: post))).set
      (pre.length + (a :: k1).length) 0 = pre ++ ((a :: k1) ++ 0 :: (v ++ 10 :: post)) := by
    have h := set_at (pre ++ (a :: k1)) (v ++ 10 :: post) 61 0
    rw [List.length_append, List.append_assoc, List.append_assoc] at h
    exact h
  have hcstr1 := cstr_at pre (a :: k1) (v ++ 10 :: post) hk0
  have hloop := name_loop_key (a :: k1) (v ++ 10 :: post) (MFGINFO_SIZE - pre.length)
    (by simp) hk0 (by omega)
  have hfind2 : strchr (pre ++ ((a :: k1).map name_char ++ 0 :: (v ++ 10 :: post)))
      (pre.length + (a :: k1).length + 1) 10
      = Find.found (pre.length + (a :: k1).length + 1 + v.length) := by
    have := strchr_append_found (pre ++ ((a :: k1).map name_char ++ [0])) v post 10 hval
    simpa [List.append_assoc, Nat.add_assoc] using this
  have hcstr2 := cstr_at pre ((a :: k1).map name_char) (v ++ 10 :: post) hm0
  have hsz : ¬ MFGINFO_SIZE ≤ pre.length + (a :: k1).length := by omega
  unfold loop_body
  simp only [hget, if_neg ha255, if_neg ha35, hfind, if_neg hsz, hset, hcstr1,
    List.drop_left, hloop, List.take_left, hfind2, hcstr2]
  have e1 : pre.length + (a :: k1).length + 1 + v.length - (pre.length + (a :: k1).length + 1)
      = v.length := by omega
  have e2 : pre.length + (a :: k1).length + 1 + v.length + 1
      = pre.length + ((a :: k1).length + v.length + 2) := by omega
  rw [e1, e2]

/-- One pass of the loop with the cursor on a well-formed comment line. -/
theorem loop_body_comment (child : List Nat → Option Nat)
    (add : List nvmem_cell_info → nvmem_cell_info → Int)
    (pre text post : List Nat) (ret : Int) (cells : List nvmem_cell_info)
    (hwf : (Line.comment text).wf) :
    loop_body child add (pre ++ (35 :: (text ++ 10 :: post))) pre.length ret cells
      = Step.next (pre ++ (35 :: (text ++ 10 :: post))) (pre.length + (text.length + 2))
          ret cells := by
  have hfind : strchr (pre ++ (35 :: (text ++ 10 :: post))) pre.length 10
      = Find.found (pre.length + (35 :: text).length) := by
    have h : ∀ b ∈ 35 :: text, b ≠ 10 ∧ b ≠ 0 := by
      intro b hb
      rcases List.mem_cons.1 hb with rfl | hb
      · exact ⟨by decide, by decide⟩
      · exact hwf b hb
    exact strchr_append_found pre (35 :: text) post 10 h
  unfold loop_body
  simp only [getElem?_at, nextline, hfind]
  simp [Nat.add_assoc]

/-- One pass of the loop with the cursor on the sentinel `0xFF`. -/
theorem loop_body_sentinel (child : List Nat → Option Nat)
    (add : List nvmem_cell_info → nvmem_cell_info → Int)
    (pre rest : List Nat) (ret : Int) (cells : List nvmem_cell_info) :
    loop_body child add (pre ++ 255 :: rest) pre.length ret cells
      = Step.stop ⟨cells, Status.ret ret, pre ++ 255 :: rest⟩ := by
  unfold loop_body
  rw [getElem?_at]
  simp

theorem lines_ret_zero (ls : List Line) : lines_ret 0 ls = 0 := by
  unfold lines_ret
  split_ifs <;> rfl

theorem lines_ret_comment (ret : Int) (text : List Nat) (ls : List Line) :
    lines_ret ret (Line.comment text :: ls) = lines_ret ret ls := by
  simp [lines_ret]

theorem lines_ret_kv (ret : Int) (k v : List Nat) (ls : List Line) :
    lines_ret ret (Line.kv k v :: ls) = 0 := by
  simp [lines_ret]

/-- The whole scan over well-formed lines that end before a sentinel at a line
start, when every registration is accepted: the cells are those of the lines,
and the buffer holds the scanned lines. -/
theorem while_loop_lines (child : List Nat → Option Nat)
    (add : List nvmem_cell_info → nvmem_cell_info → Int)
    (hadd : ∀ cs i, add cs i = 0) (ls : List Line) :
    ∀ (fuel : Nat) (pre rest : List Nat) (ret : Int) (cells : List nvmem_cell_info),
      (∀ l ∈ ls, l.wf) → ls.length < fuel →
      pre.length + (lines_bytes ls).length < MFGINFO_SIZE →
      while_loop child add fuel (pre ++ (lines_bytes ls ++ 255 :: rest)) pre.length ret cells
        = ⟨cells ++ line_cells child pre.length ls, Status.ret (lines_ret ret ls),
            pre ++ (lines_scanned ls ++ 255 :: rest)⟩ := by
  induction ls with
  | nil =>
    intro fuel pre rest ret cells _ hfuel _
    obtain ⟨f, rfl⟩ : ∃ f, fuel = f + 1 := ⟨fuel - 1, by simp at hfuel; omega⟩
    rw [lines_bytes, List.nil_append, while_loop, loop_body_sentinel]
    simp [lines_scanned, line_cells, lines_ret]
  | cons l ls ih =>
    intro fuel pre rest ret cells hwf hfuel hlen
    obtain ⟨f, rfl⟩ : ∃ f, fuel = f + 1 := ⟨fuel - 1, by simp at hfuel; omega⟩
    have hwl : l.wf := hwf l (List.mem_cons_self l ls)
    have hwls : ∀ x ∈ ls, x.wf := fun x hx => hwf x (List.mem_cons_of_mem l hx)
    have hf : ls.length < f := by simp at hfuel; omega
    cases l with
    | comment text =>
      have hmem : pre ++ (lines_bytes (Line.comment text :: ls) ++ 255 :: rest)
          = pre ++ (35 :: (text ++ 10 :: (lines_bytes ls ++ 255 :: rest))) := by
        simp [lines_bytes, Line.bytes, List.append_assoc]
      have hmem2 : pre ++ (35 :: (text ++ 10 :: (lines_bytes ls ++ 255 :: rest)))
          = (pre ++ (35 :: (text ++ [10]))) ++ (lines_bytes ls ++ 255 :: rest) := by
        simp [List.append_assoc]
      have hc : pre.length + (text.length + 2) = (pre ++ (35 :: (text ++ [10]))).length := by
        simp
      have hlen2 : (pre ++ (35 :: (text ++ [10]))).length + (lines_bytes ls).length
          < MFGINFO_SIZE := by
        simp [lines_bytes, Line.bytes] at hlen ⊢; omega
      rw [hmem, while_loop, loop_body_comment child add pre text _ ret cells hwl]
      simp only []
      rw [hmem2, hc, ih f _ rest ret cells hwls hf hlen2, ← hc, lines_ret_comment]
      simp [line_cells, lines_scanned, Line.scanned, List.append_assoc]
    | kv k v =>
      have hmem : pre ++ (lines_bytes (Line.kv k v :: ls) ++ 255 :: rest)
          = pre ++ (k ++ 61 :: (v ++ 10 :: (lines_bytes ls ++ 255 :: rest))) := by
        simp [lines_bytes, Line.bytes, List.append_assoc]
      have hmem2 : pre ++ (k.map name_char ++ 0 :: (v ++ 10 :: (lines_bytes ls ++ 255 :: rest)))
          = (pre ++ (k.map name_char ++ 0 :: (v ++ [10]))) ++ (lines_bytes ls ++ 255 :: rest) := by
        simp [List.append_assoc]
      have hc : pre.length + (k.length + v.length + 2)
          = (pre ++ (k.map name_char ++ 0 :: (v ++ [10]))).length := by
        simp; omega
      have hlen1 : pre.length + k.length < MFGINFO_SIZE := by
        simp [lines_bytes, Line.bytes] at hlen; omega
      have hlen2 : (pre ++ (k.map name_char ++ 0 :: (v ++ [10]))).length + (lines_bytes ls).length
          < MFGINFO_SIZE := by
        simp [lines_bytes, Line.bytes] at hlen ⊢; omega
      rw [hmem, while_loop, loop_body_kv child add pre k v _ ret cells hwl hlen1]
      simp only [hadd, ne_eq, not_true_eq_false, if_false]
      rw [hmem2, hc, ih f _ rest 0 _ hwls hf hlen2, ← hc, lines_ret_zero, lines_ret_kv]
      simp [line_cells, lines_scanned, Line.scanned, List.append_assoc]

/-- The scan over well-formed lines that end before a sentinel at a line start,
whatever the registration answers: the cells registered, the return code and
the bytes the lines have turned into do not depend on what follows the
sentinel, and the name and value of every new cell lie inside the lines. -/
theorem while_loop_lines_any (child : List Nat → Option Nat)
    (add : List nvmem_cell_info → nvmem_cell_info → Int) (ls : List Line) :
    ∀ (pre : List Nat) (ret : Int) (cells : List nvmem_cell_info),
      (∀ l ∈ ls, l.wf) →
      pre.length + (lines_bytes ls).length < MFGINFO_SIZE →
      ∃ (cs : List nvmem_cell_info) (r : Int) (bs : List Nat),
        (∀ fuel rest, ls.length < fuel →
          while_loop child add fuel (pre ++ (lines_bytes ls ++ 255 :: rest))
            pre.length ret cells = ⟨cells ++ cs, Status.ret r, pre ++ (bs ++ 255 :: rest)⟩) ∧
        (∀ c ∈ cs, pre.length + c.name.length + 1 ≤ c.offset ∧
            c.offset + c.bytes < pre.length + (lines_bytes ls).length) := by
  induction ls with
  | nil =>
    intro pre ret cells _ _
    refine ⟨[], ret, [], ?_, ?_⟩
    · intro fuel rest hfuel
      obtain ⟨f, rfl⟩ : ∃ f, fuel = f + 1 := ⟨fuel - 1, by simp at hfuel; omega⟩
      rw [lines_bytes, List.nil_append, while_loop, loop_body_sentinel]
      simp
    · intro c hc; simp at hc
  | cons l ls ih =>
    intro pre ret cells hwf hlen
    have hwl : l.wf := hwf l (List.mem_cons_self l ls)
    have hwls : ∀ x ∈ ls, x.wf := fun x hx => hwf x (List.mem_cons_of_mem l hx)
    cases l with
    | comment text =>
      have hmem : ∀ rest, pre ++ (lines_bytes (Line.comment text :: ls) ++ 255 :: rest)
          = pre ++ (35 :: (text ++ 10 :: (lines_bytes ls ++ 255 :: rest))) := by
        intro rest; simp [lines_bytes, Line.bytes, List.append_assoc]
      have hmem2 : ∀ rest, pre ++ (35 :: (text ++ 10 :: (lines_bytes ls ++ 255 :: rest)))
          = (pre ++ (35 :: (text ++ [10]))) ++ (lines_bytes ls ++ 255 :: rest) := by
        intro rest; simp [List.append_assoc]
      have hc : pre.length + (text.length + 2) = (pre ++ (35 :: (text ++ [10]))).length := by
        simp
      have hlen2 : (pre ++ (35 :: (text ++ [10]))).length + (lines_bytes ls).length
          < MFGINFO_SIZE := by
        simp [lines_bytes, Line.bytes] at hlen ⊢; omega
      have htot : (lines_bytes (Line.comment text :: ls)).length
          = text.length + 2 + (lines_bytes ls).length := by
        simp [lines_bytes, Line.bytes]; omega
      obtain ⟨cs, r, bs, hrun, hspan⟩ := ih (pre ++ (35 :: (text ++ [10]))) ret cells hwls hlen2
      refine ⟨cs, r, (35 :: (text ++ [10])) ++ bs, ?_, ?_⟩
      · intro fuel rest hfuel
        obtain ⟨f, rfl⟩ : ∃ f, fuel = f + 1 := ⟨fuel - 1, by simp at hfuel; omega⟩
        have hf : ls.length < f := by simp at hfuel; omega
        rw [hmem, while_loop, loop_body_comment child add pre text _ ret cells hwl]
        simp only []
        rw [hmem2, hc, hrun f rest hf]
        simp [List.append_assoc]
      · intro c hcs
        have := hspan c hcs
        rw [← hc] at this
        rw [htot]
        omega
    | kv k v =>
      have hmem : ∀ rest, pre ++ (lines_bytes (Line.kv k v :: ls) ++ 255 :: rest)
          = pre ++ (k ++ 61 :: (v ++ 10 :: (lines_bytes ls ++ 255 :: rest))) := by
        intro rest; simp [lines_bytes, Line.bytes, List.append_assoc]
      have hmem2 : ∀ rest,
          pre ++ (k.map name_char ++ 0 :: (v ++ 10 :: (lines_bytes ls ++ 255 :: rest)))
          = (pre ++ (k.map name_char ++ 0 :: (v ++ [10]))) ++ (lines_bytes ls ++ 255 :: rest) := by
        intro rest; simp [List.append_assoc]
      have hc : pre.length + (k.length + v.length + 2)
          = (pre ++ (k.map name_char ++ 0 :: (v ++ [10]))).length := by
        simp; omega
      have hlen1 : pre.length + k.length < MFGINFO_SIZE := by
        simp [lines_bytes, Line.bytes] at hlen; omega
      have hlen2 : (pre ++ (k.map name_char ++ 0 :: (v ++ [10]))).length + (lines_bytes ls).length
          < MFGINFO_SIZE := by
        simp [lines_bytes, Line.bytes] at hlen ⊢; omega
      have htot : (lines_bytes (Line.kv k v :: ls)).length
          = k.length + v.length + 2 + (lines_bytes ls).length := by
        simp [lines_bytes, Line.bytes]; omega
      by_cases hr : add cells ⟨k.map name_char, pre.length + k.length + 1, v.length,
          decide (k = MFG_MAC), child (k.map name_char)⟩ = 0
      swap
      · refine ⟨[], add cells ⟨k.map name_char, pre.length + k.length + 1, v.length,
            decide (k = MFG_MAC), child (k.map name_char)⟩,
            (k.map name_char ++ 0 :: (v ++ [10])) ++ lines_bytes ls, ?_, ?_⟩
        · intro fuel rest hfuel
          obtain ⟨f, rfl⟩ : ∃ f, fuel = f + 1 := ⟨fuel - 1, by simp at hfuel; omega⟩
          rw [hmem, while_loop, loop_body_kv child add pre k v _ ret cells hwl hlen1]
          simp only [ne_eq, hr, not_false_eq_true, if_true]
          simp [List.append_assoc]
        · intro c hcs; simp at hcs
      · obtain ⟨cs, r, bs, hrun, hspan⟩ := ih (pre ++ (k.map name_char ++ 0 :: (v ++ [10])))
          (add cells ⟨k.map name_char, pre.length + k.length + 1, v.length,
            decide (k = MFG_MAC), child (k.map name_char)⟩)
          (cells ++ [⟨k.map name_char, pre.length + k.length + 1, v.length,
            decide (k = MFG_MAC), child (k.map name_char)⟩]) hwls hlen2
        refine ⟨⟨k.map name_char, pre.length + k.length + 1, v.length,
            decide (k = MFG_MAC), child (k.map name_char)⟩ :: cs, r,
            (k.map name_char ++ 0 :: (v ++ [10])) ++ bs, ?_, ?_⟩
        · intro fuel rest hfuel
          obtain ⟨f, rfl⟩ : ∃ f, fuel = f + 1 := ⟨fuel - 1, by simp at hfuel; omega⟩
          have hf : ls.length < f := by simp at hfuel; omega
          rw [hmem, while_loop, loop_body_kv child add pre k v _ ret cells hwl hlen1]
          rw [hr] at hrun
          simp only [ne_eq, hr, not_true_eq_false, if_false]
          rw [hmem2, hc, hrun f rest hf]
          simp [List.append_assoc]
        · intro c hcs
          rcases List.mem_cons.1 hcs with rfl | hcs
          · simp only [List.length_map]
            rw [htot]
            omega
          · have := hspan c hcs
            rw [← hc] at this
            rw [htot]
            omega

theorem plain_wf (l : Line) (h : l.plain) : l.wf := by
  cases l with
  | comment text => exact h
  | kv k v =>
    obtain ⟨hne, hkey, h35, hval⟩ := h
    refine ⟨hne, ?_, h35, ?_, hval⟩
    · intro b hb
      have := hkey b hb
      exact ⟨this.2.2, by omega⟩
    · obtain ⟨a, k1, rfl⟩ := List.exists_cons_of_ne_nil hne
      have := hkey a (by simp)
      simp only [List.head?_cons, ne_eq, Option.some.injEq]
      omega

theorem lines_length_le (ls : List Line) : ls.length ≤ (lines_bytes ls).length := by
  induction ls with
  | nil => simp
  | cons l ls ih =>
    cases l <;> simp [lines_bytes, Line.bytes] <;> omega

theorem name_char_map (k : List Nat) : k.map name_char = normalized_name k := by
  unfold normalized_name
  rw [List.map_map]
  rfl

theorem line_cells_expected (child : List Nat → Option Nat) (ls : List Line) :
    ∀ pos, (line_cells child pos ls).map (fun c => (c.name, c.offset, c.bytes))
      = expected_cells pos ls := by
  induction ls with
  | nil => intro pos; rfl
  | cons l ls ih =>
    intro pos
    cases l with
    | comment text => simp only [line_cells, expected_cells]; exact ih _
    | kv k v =>
      simp only [line_cells, expected_cells, List.map_cons, name_char_map]
      rw [ih]

theorem line_cells_post_process (child : List Nat → Option Nat) (ls : List Line) :
    ∀ pos, (line_cells child pos ls).map (fun c => (c.name, c.read_post_process))
      = (line_keys ls).map (fun k => (normalized_name k, decide (k = MFG_MAC))) := by
  induction ls with
  | nil => intro pos; rfl
  | cons l ls ih =>
    intro pos
    cases l with
    | comment text => simp only [line_cells, line_keys]; exact ih _
    | kv k v =>
      simp only [line_cells, line_keys, List.map_cons, name_char_map]
      rw [ih]

theorem lines_ret_of_pair (ret : Int) (ls : List Line) (h : ∃ k v, Line.kv k v ∈ ls) :
    lines_ret ret ls = 0 := by
  obtain ⟨k, v, hmem⟩ := h
  unfold lines_ret
  rw [if_pos]
  rw [List.any_eq_true]
  exact ⟨Line.kv k v, hmem, rfl⟩

/-- The run of `adtran_add_cells` on well-formed lines followed by a sentinel at
a line start, with a successful read, a container node and every registration
accepted. -/
theorem add_cells_lines (child : List Nat → Option Nat)
    (add : List nvmem_cell_info → nvmem_cell_info → Int)
    (hadd : ∀ cs i, add cs i = 0) (ls : List Line) (rest : List Nat)
    (hwf : ∀ l ∈ ls, l.wf) (hlen : (lines_bytes ls).length < MFGINFO_SIZE) :
    adtran_add_cells 1024 true child add (lines_bytes ls ++ 255 :: rest)
      = ⟨line_cells child 0 ls, Status.ret (lines_ret 1024 ls),
          lines_scanned ls ++ 255 :: rest⟩ := by
  have hfuel : ls.length < (lines_bytes ls ++ 255 :: rest).length + 1 := by
    have := lines_length_le ls
    simp only [List.length_append, List.length_cons]
    omega
  have h := while_loop_lines child add hadd ls _ [] rest 1024 [] hwf hfuel
    (by simpa using hlen)
  simp only [List.nil_append, List.length_nil] at h
  unfold adtran_add_cells
  simp only [MFGINFO_SIZE]
  rw [if_neg (by decide), if_neg (by decide), if_neg (by decide)]
  exact h

/-! ## The scan on arbitrary buffers -/

theorem nextline_shape (mem : List Nat) (c : Nat) (ret : Int)
    (cells : List nvmem_cell_info) :
    (∃ r, nextline mem c ret cells = Step.stop r ∧ r.cells = cells) ∨
    (∃ n, nextline mem c ret cells = Step.next mem (n + 1) ret cells ∧
      strchr mem c 10 = Find.found n) := by
  unfold nextline
  cases h : strchr mem c 10 with
  | found n => right; exact ⟨n, rfl, rfl⟩
  | null => left; exact ⟨_, rfl, rfl⟩
  | fault => left; exact ⟨_, rfl, rfl⟩

/-- The three ways one pass of the loop can go: it ends the loop and registers
nothing, it skips to the next line and registers nothing, or it tokenizes a
line and registers one descriptor. -/
theorem loop_body_shape (child : List Nat → Option Nat)
    (add : List nvmem_cell_info → nvmem_cell_info → Int)
    (mem : List Nat) (c : Nat) (ret : Int) (cells : List nvmem_cell_info) :
    (∃ r, loop_body child add mem c ret cells = Step.stop r ∧ r.cells = cells) ∨
    (∃ n, loop_body child add mem c ret cells = Step.next mem (n + 1) ret cells ∧
      strchr mem c 10 = Find.found n) ∨
    (∃ e s n, strchr mem c 61 = Find.found e ∧ e < MFGINFO_SIZE ∧
      name_loop ((mem.set e 0).drop c) (MFGINFO_SIZE - c) = some s ∧
      strchr ((mem.set e 0).take c ++ s) (e + 1) 10 = Find.found n ∧
      loop_body child add mem c ret cells
        = Step.next ((mem.set e 0).take c ++ s) (n + 1) 0
            (cells ++ [⟨cstr ((mem.set e 0).take c ++ s) c, e + 1, n - (e + 1),
              decide (cstr (mem.set e 0) c = MFG_MAC),
              child (cstr ((mem.set e 0).take c ++ s) c)⟩])) := by
  have hnl : (∃ r, nextline mem c ret cells = Step.stop r ∧ r.cells = cells) ∨
      (∃ n, nextline mem c ret cells = Step.next mem (n + 1) ret cells ∧
        strchr mem c 10 = Find.found n) ∨
      (∃ e s n, strchr mem c 61 = Find.found e ∧ e < MFGINFO_SIZE ∧
        name_loop ((mem.set e 0).drop c) (MFGINFO_SIZE - c) = some s ∧
        strchr ((mem.set e 0).take c ++ s) (e + 1) 10 = Find.found n ∧
        nextline mem c ret cells
          = Step.next ((mem.set e 0).take c ++ s) (n + 1) 0
              (cells ++ [⟨cstr ((mem.set e 0).take c ++ s) c, e + 1, n - (e + 1),
                decide (cstr (mem.set e 0) c = MFG_MAC),
                child (cstr ((mem.set e 0).take c ++ s) c)⟩])) := by
    rcases nextline_shape mem c ret cells with h | h
    · exact Or.inl h
    · exact Or.inr (Or.inl h)
  unfold loop_body
  cases hb : mem[c]? with
  | none => left; exact ⟨_, rfl, rfl⟩
  | some b =>
    simp only []
    by_cases h255 : b = 255
    · rw [if_pos h255]; left; exact ⟨_, rfl, rfl⟩
    · rw [if_neg h255]
      by_cases h35 : b = 35
      · rw [if_pos h35]; exact hnl
      · rw [if_neg h35]
        cases he : strchr mem c 61 with
        | fault => left; exact ⟨_, rfl, rfl⟩
        | null =>
          simp only []
          rcases nextline_shape mem c ret cells with h | h
          · exact Or.inl h
          · exact Or.inr (Or.inl h)
        | found e =>
          simp only []
          by_cases hsz : MFGINFO_SIZE ≤ e
          · rw [if_pos hsz]; left; exact ⟨_, rfl, rfl⟩
          · rw [if_neg hsz]
            cases hs : name_loop ((mem.set e 0).drop c) (MFGINFO_SIZE - c) with
            | none => left; exact ⟨_, rfl, rfl⟩
            | some s =>
              simp only []
              cases hn : strchr ((mem.set e 0).take c ++ s) (e + 1) 10 with
              | fault => left; exact ⟨_, rfl, rfl⟩
              | null => left; exact ⟨_, rfl, rfl⟩
              | found n =>
                simp only []
                by_cases hr : add cells ⟨cstr ((mem.set e 0).take c ++ s) c, e + 1, n - (e + 1),
                    decide (cstr (mem.set e 0) c = MFG_MAC),
                    child (cstr ((mem.set e 0).take c ++ s) c)⟩ = 0
                · right; right
                  refine ⟨e, s, n, rfl, by omega, hs, hn, ?_⟩
                  simp only [ne_eq, hr, not_true_eq_false, if_false]
                · left
                  simp only [ne_eq, hr, not_false_eq_true, if_true]
                  exact ⟨_, rfl, rfl⟩

theorem strchr_from_found_bounds (l : List Nat) (ch : Nat) :
    ∀ i n, strchr_from l ch i = Find.found n → i ≤ n ∧ n < i + l.length := by
  induction l with
  | nil => intro i n h; simp [strchr_from] at h
  | cons a l ih =>
    intro i n h
    rw [strchr_from] at h
    by_cases ha : a = ch
    · rw [if_pos ha] at h
      have : i = n := by simpa using h
      simp only [List.length_cons]
      omega
    · rw [if_neg ha] at h
      by_cases h0 : a = 0
      · rw [if_pos h0] at h
        simp at h
      · rw [if_neg h0] at h
        have := ih (i + 1) n h
        simp only [List.length_cons]
        omega

/-- A successful search returns a pointer at or after its start and inside the
memory. -/
theorem strchr_found_bounds (mem : List Nat) (s ch n : Nat)
    (h : strchr mem s ch = Find.found n) : s ≤ n ∧ n < mem.length := by
  unfold strchr at h
  have := strchr_from_found_bounds (mem.drop s) ch s n h
  rw [List.length_drop] at this
  omega

theorem name_loop_length (l : List Nat) :
    ∀ room s, name_loop l room = some s → s.length = l.length := by
  induction l with
  | nil => intro room s h; simp [name_loop] at h
  | cons a l ih =>
    intro room s h
    cases room with
    | zero => simp [name_loop] at h
    | succ room =>
      cases l with
      | nil => simp [name_loop] at h
      | cons b l =>
        rw [name_loop_cons_cons] at h
        by_cases hb : b = 0
        · rw [if_pos hb] at h
          have : name_char a :: b :: l = s := by simpa using h
          rw [← this]; rfl
        · rw [if_neg hb] at h
          obtain ⟨s1, hs1, rfl⟩ := Option.map_eq_some'.1 h
          have := ih room s1 hs1
          simp only [List.length_cons] at this ⊢
          omega

/-- The buffer keeps its length when a line is tokenized. -/
theorem tokenized_length (mem : List Nat) (c e : Nat) (s : List Nat)
    (he : strchr mem c 61 = Find.found e)
    (hs : name_loop ((mem.set e 0).drop c) (MFGINFO_SIZE - c) = some s) :
    ((mem.set e 0).take c ++ s).length = mem.length := by
  have hb := strchr_found_bounds mem c 61 e he
  have hl := name_loop_length _ _ _ hs
  rw [List.length_append, hl, List.length_take, List.length_drop, List.length_set]
  omega

/-- A property of descriptors that every pass of the loop respects, on a memory
of `len` bytes, holds for all cells at the end of the loop. -/
theorem while_loop_cells (child : List Nat → Option Nat)
    (add : List nvmem_cell_info → nvmem_cell_info → Int)
    (P : nvmem_cell_info → Prop) (len : Nat)
    (hP : ∀ mem c e s n, mem.length = len → strchr mem c 61 = Find.found e →
      e < MFGINFO_SIZE →
      name_loop ((mem.set e 0).drop c) (MFGINFO_SIZE - c) = some s →
      strchr ((mem.set e 0).take c ++ s) (e + 1) 10 = Find.found n →
      P ⟨cstr ((mem.set e 0).take c ++ s) c, e + 1, n - (e + 1),
        decide (cstr (mem.set e 0) c = MFG_MAC),
        child (cstr ((mem.set e 0).take c ++ s) c)⟩) :
    ∀ (fuel : Nat) (mem : List Nat) (c : Nat) (ret : Int) (cells : List nvmem_cell_info),
      mem.length = len → (∀ x ∈ cells, P x) →
      ∀ x ∈ (while_loop child add fuel mem c ret cells).cells, P x := by
  intro fuel
  induction fuel with
  | zero => intro mem c ret cells _ h; exact h
  | succ f ih =>
    intro mem c ret cells hlen h
    rw [while_loop]
    rcases loop_body_shape child add mem c ret cells with ⟨r, hr, hc⟩ | ⟨n, hr, _⟩ |
      ⟨e, s, n, he, hsz, hs, hn, hr⟩
    · rw [hr]; simp only []; rw [hc]; exact h
    · rw [hr]; exact ih _ _ _ _ hlen h
    · rw [hr]
      apply ih
      · rw [tokenized_length mem c e s he hs]; exact hlen
      · intro x hx
        rcases List.mem_append.1 hx with hx | hx
        · exact h x hx
        · rw [List.mem_singleton.1 hx]
          exact hP mem c e s n hlen he hsz hs hn

/-- The value of every registered cell lies inside the memory the scan can read:
it ends before the `0x0A` that `strchr` found. When nothing can be read behind
the array, this is the array itself. -/
theorem add_cells_spans_inside_memory (child : List Nat → Option Nat)
    (add : List nvmem_cell_info → nvmem_cell_info → Int)
    (rd : Int) (np : Bool) (mem : List Nat) :
    ∀ x ∈ (adtran_add_cells rd np child add mem).cells, x.offset + x.bytes < mem.length := by
  intro x hx
  have hloop : ∀ fuel cur ret,
      ∀ y ∈ (while_loop child add fuel mem cur ret []).cells,
        y.offset + y.bytes < mem.length := by
    intro fuel cur ret
    apply while_loop_cells child add (fun y => y.offset + y.bytes < mem.length) mem.length
    · intro m1 c1 e s n hlen he _ hs hn
      have hb := strchr_found_bounds _ _ _ _ hn
      rw [tokenized_length m1 c1 e s he hs, hlen] at hb
      show e + 1 + (n - (e + 1)) < mem.length
      omega
    · rfl
    · intro y hy; simp at hy
  unfold adtran_add_cells at hx
  split_ifs at hx
  · simp at hx
  · simp at hx
  · simp at hx
  · exact hloop _ _ _ x hx

theorem takeWhile_nul_split (l : List Nat) :
    ∀ k, l.takeWhile (fun b => b ≠ 0) = k → l = k ∨ ∃ d, l = k ++ 0 :: d := by
  induction l with
  | nil => intro k h; left; simpa using h
  | cons a l ih =>
    intro k h
    by_cases ha : a = 0
    · subst ha
      right
      refine ⟨l, ?_⟩
      simp at h
      rw [h]; rfl
    · rw [List.takeWhile_cons] at h
      simp only [ne_eq, ha, not_false_eq_true, decide_True, if_true] at h
      subst h
      rcases ih _ rfl with h1 | ⟨d, h1⟩
      · left; rw [List.cons.injEq]; exact ⟨rfl, h1⟩
      · right; refine ⟨d, ?_⟩
        rw [List.cons_append, List.cons.injEq]; exact ⟨rfl, h1⟩

theorem name_loop_no_nul (k : List Nat) (h0 : ∀ b ∈ k, b ≠ 0) :
    ∀ room, name_loop k room = none := by
  induction k with
  | nil => intro room; rfl
  | cons a k ih =>
    intro room
    cases room with
    | zero => rfl
    | succ room =>
      cases k with
      | nil => rfl
      | cons b k =>
        have hb : b ≠ 0 := h0 b (by simp)
        rw [name_loop_cons_cons, if_neg hb,
          ih (fun x hx => h0 x (List.mem_cons_of_mem a hx)) room]
        rfl

theorem name_loop_key_some (k d : List Nat) (hk : k ≠ []) (h0 : ∀ b ∈ k, b ≠ 0) :
    ∀ room s, name_loop (k ++ 0 :: d) room = some s → s = k.map name_char ++ 0 :: d := by
  induction k with
  | nil => exact absurd rfl hk
  | cons a k ih =>
    intro room s h
    cases room with
    | zero => simp [name_loop] at h
    | succ room =>
      cases k with
      | nil =>
        simp only [List.nil_append, List.cons_append, name_loop_cons_cons, if_true,
          Option.some.injEq] at h
        rw [← h]; rfl
      | cons b k =>
        have hb : b ≠ 0 := h0 b (by simp)
        simp only [List.cons_append] at h
        rw [name_loop_cons_cons, if_neg hb] at h
        obtain ⟨s1, hs1, rfl⟩ := Option.map_eq_some'.1 h
        have := ih (by simp) (fun x hx => h0 x (List.mem_cons_of_mem a hx)) room s1
          (by simpa using hs1)
        rw [this]; rfl

/-- A key that `strcmp` finds equal to `MFG_MAC` is exposed under the name
`mfg-mac`. -/
theorem post_process_name (mem1 : List Nat) (c room : Nat) (s : List Nat)
    (h : cstr mem1 c = MFG_MAC) (hs : name_loop (mem1.drop c) room = some s) :
    cstr (mem1.take c ++ s) c = mfg_mac_name := by
  have hc : c ≤ mem1.length := by
    by_contra hlt
    rw [List.drop_of_length_le (by omega)] at hs
    simp [name_loop] at hs
  have hdrop : (mem1.take c ++ s).drop c = s :=
    List.drop_left' (by simp [hc])
  unfold cstr at h ⊢
  rw [hdrop]
  have h0 : ∀ b ∈ MFG_MAC, b ≠ 0 := by decide
  rcases takeWhile_nul_split _ _ h with h1 | ⟨d, h1⟩
  · rw [h1, name_loop_no_nul MFG_MAC h0] at hs
    exact absurd hs (by simp)
  · rw [h1] at hs
    rw [name_loop_key_some MFG_MAC d (by decide) h0 room s hs]
    exact takeWhile_key (MFG_MAC.map name_char) d (by decide)

/-! ## Properties of `adtran_add_cells` -/

set_option maxRecDepth 100000

/-- Claim C1, as stated, fails on two counts. A comment line may hold a NUL
byte: on `#\0\nA=1\n\xFF...` the search for the end of the comment meets the NUL
and returns NULL, so the loop ends with no cell and the call returns 1024, the
result of the read. And when the layout has no container node the call returns
`-ENOENT` before it looks at the blob `A=1\n\xFF...`. -/
theorem add_cells_comment_nul_or_no_container :
    (lines_bytes [Line.comment [0], Line.kv [65] [49]] ++ 255 :: List.replicate 1016 255).length
        = 1024 ∧
      (adtran_add_cells 1024 true (fun _ => none) (fun _ _ => 0)
        (lines_bytes [Line.comment [0], Line.kv [65] [49]]
          ++ 255 :: List.replicate 1016 255)).cells = [] ∧
      (adtran_add_cells 1024 true (fun _ => none) (fun _ _ => 0)
        (lines_bytes [Line.comment [0], Line.kv [65] [49]]
          ++ 255 :: List.replicate 1016 255)).status = Status.ret 1024 ∧
      (lines_bytes [Line.kv [65] [49]] ++ 255 :: List.replicate 1019 255).length = 1024 ∧
      (adtran_add_cells 1024 false (fun _ => none) (fun _ _ => 0)
        (lines_bytes [Line.kv [65] [49]] ++ 255 :: List.replicate 1019 255)).cells = [] ∧
      (adtran_add_cells 1024 false (fun _ => none) (fun _ _ => 0)
        (lines_bytes [Line.kv [65] [49]] ++ 255 :: List.replicate 1019 255)).status
          = Status.ret (-2) := by
  decide

/-- Claim C1, amended: when the read returns the 1024 bytes, the layout has its
container node and every registration is accepted, then for every 1024-byte
blob made of comment lines without NUL and of one or more lines `KEY=VALUE\n`
(KEY non-empty printable ASCII without `=`, not starting with `#`; VALUE without
`0x0A` and NUL), followed by `0xFF` at the start of the next line,
`adtran_add_cells` registers exactly one cell per pair, in blob order, named by
the key lower-cased with `_` replaced by `-`, with the offset of the byte after
`=` and the number of bytes up to the `0x0A`, and returns 0; whatever lies
behind the array. -/
theorem add_cells_registers_every_pair (child : List Nat → Option Nat)
    (add : List nvmem_cell_info → nvmem_cell_info → Int)
    (ls : List Line) (rest tail : List Nat)
    (hadd : ∀ cs i, add cs i = 0)
    (hform : ∀ l ∈ ls, l.plain)
    (hpair : ∃ k v, Line.kv k v ∈ ls)
    (hlen : (lines_bytes ls ++ 255 :: rest).length = MFGINFO_SIZE) :
    (adtran_add_cells 1024 true child add ((lines_bytes ls ++ 255 :: rest) ++ tail)).cells.map
        (fun c => (c.name, c.offset, c.bytes)) = expected_cells 0 ls ∧
      (adtran_add_cells 1024 true child add ((lines_bytes ls ++ 255 :: rest) ++ tail)).status
        = Status.ret 0 := by
  have hwf : ∀ l ∈ ls, l.wf := fun l hl => plain_wf l (hform l hl)
  have hl : (lines_bytes ls).length < MFGINFO_SIZE := by
    simp only [List.length_append, List.length_cons] at hlen
    omega
  have hmem : (lines_bytes ls ++ 255 :: rest) ++ tail = lines_bytes ls ++ 255 :: (rest ++ tail) := by
    simp [List.append_assoc]
  rw [hmem, add_cells_lines child add hadd ls (rest ++ tail) hwf hl]
  exact ⟨line_cells_expected child ls 0, by rw [lines_ret_of_pair 1024 ls hpair]⟩

theorem add_cells_registers_every_pair_witness :
    (adtran_add_cells 1024 true (fun _ => none) (fun _ _ => 0)
        ((lines_bytes [Line.kv [88] [], Line.kv [89] [49]] ++ 255 :: List.replicate 1016 255)
          ++ [])).cells.map (fun c => (c.name, c.offset, c.bytes))
        = [([120], 2, 0), ([121], 5, 1)] ∧
      (adtran_add_cells 1024 true (fun _ => none) (fun _ _ => 0)
        ((lines_bytes [Line.kv [88] [], Line.kv [89] [49]] ++ 255 :: List.replicate 1016 255)
          ++ [])).status = Status.ret 0 :=
  add_cells_registers_every_pair (fun _ => none) (fun _ _ => 0)
    [Line.kv [88] [], Line.kv [89] [49]] (List.replicate 1016 255) []
    (fun _ _ => rfl) (by simp [Line.plain]) ⟨[88], [], by simp⟩
    (by simp [lines_bytes, Line.bytes, MFGINFO_SIZE])

/-- Claim C5, as stated, fails: in the blob `A=1\xFF2\nB=2\n\xFF...` the first
`0xFF` is byte 3, in the middle of the first line; the scan does not stop there:
the value of cell `a` is the bytes 2 to 4, the `0xFF` among them, and cell `b`
lies behind it. -/
theorem add_cells_passes_sentinel_inside_line :
    (padded [65, 61, 49, 255, 50, 10, 66, 61, 50, 10, 255] 255)[3]? = some 255 ∧
      (adtran_add_cells 1024 true (fun _ => none) (fun _ _ => 0)
        (padded [65, 61, 49, 255, 50, 10, 66, 61, 50, 10, 255] 255)).cells
        = [⟨[97], 2, 3, false, none⟩, ⟨[98], 8, 1, false, none⟩] := by
  decide

/-- Claim C5, amended: parsing stops at the first `0xFF` that stands at the start
of a line, where the loop test reads it. When the bytes before such a `0xFF` are
well-formed lines, the cells registered and the return code are the same
whatever follows the `0xFF`, and the name and the value of every registered cell
lie before it. -/
theorem add_cells_stops_at_line_start_sentinel (child : List Nat → Option Nat)
    (add : List nvmem_cell_info → nvmem_cell_info → Int) (ls : List Line)
    (hwf : ∀ l ∈ ls, l.wf) (hlen : (lines_bytes ls).length < MFGINFO_SIZE) :
    ∃ (cs : List nvmem_cell_info) (r : Int),
      (∀ rest, (adtran_add_cells 1024 true child add (lines_bytes ls ++ 255 :: rest)).cells = cs ∧
        (adtran_add_cells 1024 true child add (lines_bytes ls ++ 255 :: rest)).status
          = Status.ret r) ∧
      ∀ c ∈ cs, c.name.length + 1 ≤ c.offset ∧ c.offset + c.bytes < (lines_bytes ls).length := by
  obtain ⟨cs, r, bs, hrun, hspan⟩ := while_loop_lines_any child add ls [] 1024 [] hwf
    (by simpa using hlen)
  refine ⟨cs, r, ?_, ?_⟩
  · intro rest
    have hfuel : ls.length < (lines_bytes ls ++ 255 :: rest).length + 1 := by
      have := lines_length_le ls
      simp only [List.length_append, List.length_cons]
      omega
    have h := hrun _ rest hfuel
    simp only [List.nil_append, List.length_nil] at h
    unfold adtran_add_cells
    simp only [MFGINFO_SIZE]
    rw [if_neg (by decide), if_neg (by decide), if_neg (by decide), h]
    exact ⟨rfl, rfl⟩
  · intro c hc
    have := hspan c hc
    simpa using this

theorem add_cells_stops_at_line_start_sentinel_witness :
    ∃ (cs : List nvmem_cell_info) (r : Int),
      (∀ rest, (adtran_add_cells 1024 true (fun _ => none) (fun _ _ => 0)
          (lines_bytes [Line.kv [65] [49]] ++ 255 :: rest)).cells = cs ∧
        (adtran_add_cells 1024 true (fun _ => none) (fun _ _ => 0)
          (lines_bytes [Line.kv [65] [49]] ++ 255 :: rest)).status = Status.ret r) ∧
      ∀ c ∈ cs, c.name.length + 1 ≤ c.offset ∧
        c.offset + c.bytes < (lines_bytes [Line.kv [65] [49]]).length :=
  add_cells_stops_at_line_start_sentinel (fun _ => none) (fun _ _ => 0) [Line.kv [65] [49]]
    (by simp [Line.wf]) (by simp [lines_bytes, Line.bytes, MFGINFO_SIZE])

/-- The sample of the specification: `A=1\n\xFFgarbage` yields exactly one cell,
named `a`, whose value is the one byte at offset 2. -/
theorem add_cells_sample_garbage_after_sentinel :
    (adtran_add_cells 1024 true (fun _ => none) (fun _ _ => 0)
      (padded [65, 61, 49, 10, 255, 103, 97, 114, 98, 97, 103, 101] 0)).cells
      = [⟨[97], 2, 1, false, none⟩] := by
  decide

/-- Claim C6: the code breaks it on the blob `A\n#x=1\n\xFF...`. The first line has
no `=`, the search for `=` runs on into the comment line, and the cell that is
registered has the name `a\n#x` (bytes 0 to 3, the comment line's `#x` among them)
and the comment's `1` as its value. -/
theorem add_cells_key_swallows_comment_line :
    (adtran_add_cells 1024 true (fun _ => none) (fun _ _ => 0)
      (padded [65, 10, 35, 120, 61, 49, 10, 255] 255)).cells
      = [⟨[97, 10, 35, 120], 5, 1, false, none⟩] := by
  decide

/-- The sample of the specification: `#ignored=1\nB=2\n\xFF` yields exactly one
cell, `b`. -/
theorem add_cells_sample_comment_skipped :
    (adtran_add_cells 1024 true (fun _ => none) (fun _ _ => 0)
      (padded [35, 105, 103, 110, 111, 114, 101, 100, 61, 49, 10, 66, 61, 50, 10, 255] 255)).cells
      = [⟨[98], 13, 1, false, none⟩] := by
  decide

/-- Claim C7: the code breaks it on the 1024-byte blob `A=xxx...x`, which holds no
`0x0A` and no NUL. The search for the end of the value leaves the array: with
nothing readable behind it the run faults, and with the bytes `x`, `0x0A` behind
it the cell `a` is registered with offset 2 and 1023 bytes, a span that ends at
1025, outside the blob. -/
theorem add_cells_value_runs_behind_array :
    ([65, 61] ++ List.replicate 1022 120).length = 1024 ∧
      (adtran_add_cells 1024 true (fun _ => none) (fun _ _ => 0)
        (([65, 61] ++ List.replicate 1022 120) ++ [120, 10])).cells
        = [⟨[97], 2, 1023, false, none⟩] ∧
      (adtran_add_cells 1024 true (fun _ => none) (fun _ _ => 0)
        ([65, 61] ++ List.replicate 1022 120)).status = Status.fault := by
  decide

/-- Claim C8, as stated, fails: the line `mfg_mac=00:11:22:33:44:50\n` is
registered under the name `mfg-mac` without the post-processor. -/
theorem add_cells_lower_case_key_without_post_process :
    (adtran_add_cells 1024 true (fun _ => none) (fun _ _ => 0)
      (padded ([109, 102, 103, 95, 109, 97, 99, 61] ++ mac_sample 48 ++ [10, 255]) 255)).cells
      = [⟨mfg_mac_name, 8, 17, false, none⟩] := by
  decide

/-- Claim C8, amended: for every blob, a registered cell that carries the
post-processor has the normalized name `mfg-mac`; the converse fails, because
the key is compared with `MFG_MAC` byte for byte before it is normalized: on a
blob of lines shaped as in claim C1, with every registration accepted, the cell
of a line
carries the post-processor exactly when its key is `MFG_MAC` as written, so
keys such as `mfg_mac` or `Mfg-Mac` get the name `mfg-mac` and no
post-processor. -/
theorem add_cells_post_process_iff_exact_key (child : List Nat → Option Nat)
    (add : List nvmem_cell_info → nvmem_cell_info → Int) :
    (∀ (rd : Int) (np : Bool) (mem : List Nat),
      ∀ c ∈ (adtran_add_cells rd np child add mem).cells,
        c.read_post_process = true → c.name = mfg_mac_name) ∧
    (∀ (ls : List Line) (rest : List Nat), (∀ cs i, add cs i = 0) → (∀ l ∈ ls, l.plain) →
      (lines_bytes ls).length < MFGINFO_SIZE →
      (adtran_add_cells 1024 true child add (lines_bytes ls ++ 255 :: rest)).cells.map
          (fun c => (c.name, c.read_post_process))
        = (line_keys ls).map (fun k => (normalized_name k, decide (k = MFG_MAC)))) := by
  constructor
  · intro rd np mem c hc
    have hloop : ∀ fuel m cur ret,
        ∀ x ∈ (while_loop child add fuel m cur ret []).cells,
          x.read_post_process = true → x.name = mfg_mac_name := by
      intro fuel m cur ret
      apply while_loop_cells child add
        (fun x => x.read_post_process = true → x.name = mfg_mac_name) m.length
      · intro m1 c1 e s n _ _ _ hs _ hpp
        exact post_process_name (m1.set e 0) c1 _ s (of_decide_eq_true hpp) hs
      · rfl
      · intro x hx; simp at hx
    unfold adtran_add_cells at hc
    split_ifs at hc
    · simp at hc
    · simp at hc
    · simp at hc
    · exact hloop _ _ _ _ c hc
  · intro ls rest hadd hform hlen
    rw [add_cells_lines child add hadd ls rest (fun l hl => plain_wf l (hform l hl)) hlen]
    exact line_cells_post_process child ls 0

theorem add_cells_post_process_iff_exact_key_witness :
    (adtran_add_cells 1024 true (fun _ => none) (fun _ _ => 0)
        (lines_bytes [Line.kv MFG_MAC (mac_sample 48), Line.kv [77, 102, 103, 45, 77, 97, 99] [49]]
          ++ 255 :: List.replicate 990 255)).cells.map (fun c => (c.name, c.read_post_process))
      = [(mfg_mac_name, true), (mfg_mac_name, false)] :=
  (add_cells_post_process_iff_exact_key (fun _ => none) (fun _ _ => 0)).2
    [Line.kv MFG_MAC (mac_sample 48), Line.kv [77, 102, 103, 45, 77, 97, 99] [49]]
    (List.replicate 990 255) (fun _ _ => rfl) (by simp [Line.plain, MFG_MAC, mac_sample])
    (by simp [lines_bytes, Line.bytes, MFGINFO_SIZE, MFG_MAC, mac_sample])

/-! ## Further properties of `adtran_mac_address_pp` -/

/-- Claim C18: derivation is additive. On a 17-byte buffer whose byte 16 is a hex
digit of value `d`, for `i, j ≥ 0` with `i + j ≤ 15 - d`, the call with index `i`
and then the call with index `j` on its result both return 0, and the bytes
they leave are those of the single call with index `i + j`. -/
theorem mac_pp_additive (buf : List Nat) (b d : Nat) (i j : Int)
    (hlen : buf.length = 17) (hb : buf[16]? = some b) (hd : hex_value b = some d)
    (hi : 0 ≤ i) (hj : 0 ≤ j) (hij : i + j ≤ 15 - (d : Int)) :
    ∃ mid out, adtran_mac_address_pp i buf 17 = some (0, mid) ∧
      adtran_mac_address_pp j mid 17 = some (0, out) ∧
      adtran_mac_address_pp (i + j) buf 17 = some (0, out) ∧
      mid.length = 17 ∧ out.length = 17 := by
  have h1 := pp_in_range buf b d i hb hd hi (by omega)
  have hmid : (buf.set 16 (hex_char (d + i.toNat)))[16]? = some (hex_char (d + i.toNat)) := by
    rw [List.getElem?_set_self (by omega)]
  have hval : hex_value (hex_char (d + i.toNat)) = some (d + i.toNat) :=
    hex_value_hex_char _ (by omega)
  have h2 := pp_in_range (buf.set 16 (hex_char (d + i.toNat))) _ (d + i.toNat) j hmid hval hj
    (by omega)
  have h3 := pp_in_range buf b d (i + j) hb hd (by omega) hij
  have hsum : d + (i + j).toNat = d + i.toNat + j.toNat := by omega
  refine ⟨_, _, h1, h2, ?_, by simp [hlen], by simp [hlen]⟩
  rw [h3, hsum, List.set_set]

theorem mac_pp_additive_witness :
    ∃ mid out, adtran_mac_address_pp 3 (mac_sample 53) 17 = some (0, mid) ∧
      adtran_mac_address_pp 7 mid 17 = some (0, out) ∧
      adtran_mac_address_pp (3 + 7) (mac_sample 53) 17 = some (0, out) ∧
      mid.length = 17 ∧ out.length = 17 :=
  mac_pp_additive (mac_sample 53) 53 5 3 7 (by decide) (by decide) (by decide)
    (by decide) (by decide) (by decide)

/-- Claim C19: the post-processor is atomic on failure. For every buffer, length
and index, a call that returns a code other than 0 leaves every byte of the
buffer as it was. -/
theorem mac_pp_failure_keeps_buffer (buf out : List Nat) (bytes : Nat) (index r : Int)
    (h : adtran_mac_address_pp index buf bytes = some (r, out)) (hr : r ≠ 0) :
    out = buf := by
  by_cases hbytes : bytes = 17
  · subst hbytes
    cases hb : buf[16]? with
    | none => simp [adtran_mac_address_pp, hb] at h
    | some b =>
      cases hd : hex_value b with
      | none =>
        rw [pp_bad_digit buf b index hb hd] at h
        simp only [Option.some.injEq, Prod.mk.injEq] at h
        exact h.2.symm
      | some d =>
        by_cases hrange : index < 0 ∨ index > 15 - (d : Int)
        · rw [pp_out_of_range buf b d index hb hd hrange] at h
          simp only [Option.some.injEq, Prod.mk.injEq] at h
          exact h.2.symm
        · rw [pp_in_range buf b d index hb hd (by omega) (by omega)] at h
          simp only [Option.some.injEq, Prod.mk.injEq] at h
          exact absurd h.1.symm hr
  · rw [pp_bad_length buf bytes index hbytes] at h
    simp only [Option.some.injEq, Prod.mk.injEq] at h
    exact h.2.symm

theorem mac_pp_failure_keeps_buffer_witness :
    adtran_mac_address_pp 1 (mac_sample 102) 17 = some (-22, mac_sample 102) ∧
      (-22 : Int) ≠ 0 ∧ mac_sample 102 = mac_sample 102 :=
  ⟨by decide, by decide,
    mac_pp_failure_keeps_buffer (mac_sample 102) (mac_sample 102) 17 1 (-22) (by decide)
      (by decide)⟩

/-! ## Failed reads -/

/-- Claim C13: when the read of the 1024 bytes returns `r < 0` the call returns
`r`, and when it returns `r ≥ 0` other than 1024 the call returns `-EIO`; in
both cases no cell is registered and the buffer is not looked at: the outcome
is the same for every content and the bytes are left as they are. -/
theorem add_cells_read_failure (r : Int) (np : Bool) (child : List Nat → Option Nat)
    (add : List nvmem_cell_info → nvmem_cell_info → Int) (mem : List Nat) :
    (r < 0 → adtran_add_cells r np child add mem = ⟨[], Status.ret r, mem⟩) ∧
    (0 ≤ r → r ≠ 1024 → adtran_add_cells r np child add mem = ⟨[], Status.ret (- EIO), mem⟩) := by
  constructor
  · intro h
    unfold adtran_add_cells
    rw [if_pos h]
  · intro h0 h1
    unfold adtran_add_cells
    rw [if_neg (by omega), if_pos (by simpa [MFGINFO_SIZE] using h1)]

theorem add_cells_read_failure_witness :
    adtran_add_cells (-5) true (fun _ => none) (fun _ _ => 0) [65, 61, 49, 10, 255]
        = ⟨[], Status.ret (-5), [65, 61, 49, 10, 255]⟩ ∧
      adtran_add_cells 512 true (fun _ => none) (fun _ _ => 0) [65, 61, 49, 10, 255]
        = ⟨[], Status.ret (-5), [65, 61, 49, 10, 255]⟩ :=
  ⟨(add_cells_read_failure (-5) true (fun _ => none) (fun _ _ => 0) [65, 61, 49, 10, 255]).1
      (by decide),
   (add_cells_read_failure 512 true (fun _ => none) (fun _ _ => 0) [65, 61, 49, 10, 255]).2
      (by decide) (by decide)⟩

/-! ## Name normalization -/

theorem name_char_idem (b : Nat) : name_char (name_char b) = name_char b := by
  unfold name_char tolower
  split_ifs <;> omega

theorem name_loop_head (a : Nat) (l : List Nat) (room : Nat) (s : List Nat)
    (h : name_loop (a :: l) room = some s) : ∃ t, s = name_char a :: t := by
  cases room with
  | zero => simp [name_loop] at h
  | succ room =>
    cases l with
    | nil => simp [name_loop] at h
    | cons b l =>
      rw [name_loop_cons_cons] at h
      by_cases hb : b = 0
      · rw [if_pos hb] at h
        exact ⟨b :: l, by simpa using h.symm⟩
      · rw [if_neg hb] at h
        obtain ⟨s1, _, rfl⟩ := Option.map_eq_some'.1 h
        exact ⟨s1, rfl⟩

/-- Running the normalization loop on bytes it has already normalized changes
nothing. -/
theorem name_loop_idem (l : List Nat) :
    ∀ room s, name_loop l room = some s → name_loop s room = some s := by
  induction l with
  | nil => intro room s h; simp [name_loop] at h
  | cons a l ih =>
    intro room s h
    cases room with
    | zero => simp [name_loop] at h
    | succ room =>
      cases l with
      | nil => simp [name_loop] at h
      | cons b l =>
        rw [name_loop_cons_cons] at h
        by_cases hb : b = 0
        · rw [if_pos hb] at h
          have hs : s = name_char a :: b :: l := by simpa using h.symm
          rw [hs, name_loop_cons_cons, if_pos hb, name_char_idem]
        · rw [if_neg hb] at h
          obtain ⟨s1, hs1, rfl⟩ := Option.map_eq_some'.1 h
          obtain ⟨t, rfl⟩ := name_loop_head b l room s1 hs1
          rw [name_loop_cons_cons, if_neg (name_char_ne_zero b hb), ih room _ hs1,
            name_char_idem]
          rfl

theorem normalized_name_idem (key : List Nat) :
    normalized_name (normalized_name key) = normalized_name key := by
  rw [← name_char_map, ← name_char_map, List.map_map]
  apply List.map_congr_left
  intro b _
  exact name_char_idem b

/-- Claim C14: the name normalization of `adtran_add_cells` is idempotent. The
loop, run again on the bytes it has left, changes none of them; on a key it
computes the name of the specification (every character lower-cased, every `_`
replaced by `-`), and normalizing that name again yields the same name. It maps
`MFG_MAC` to `mfg-mac` and `Foo_Bar` to `foo-bar`, also as the names of the
registered cells. -/
theorem name_normalization_idempotent :
    (∀ l room s, name_loop l room = some s → name_loop s room = some s) ∧
    (∀ key, normalized_name (normalized_name key) = normalized_name key) ∧
    (∀ key rest room, key ≠ [] → (∀ b ∈ key, b ≠ 0) → key.length ≤ room →
      name_loop (key ++ 0 :: rest) room = some (normalized_name key ++ 0 :: rest) ∧
      name_loop (normalized_name key ++ 0 :: rest) room
        = some (normalized_name key ++ 0 :: rest)) ∧
    normalized_name MFG_MAC = mfg_mac_name ∧
    normalized_name [70, 111, 111, 95, 66, 97, 114] = [102, 111, 111, 45, 98, 97, 114] ∧
    (adtran_add_cells 1024 true (fun _ => none) (fun _ _ => 0)
        (padded (MFG_MAC ++ [61, 49, 10] ++ [70, 111, 111, 95, 66, 97, 114] ++ [61, 50, 10, 255])
          255)).cells.map (fun c => c.name)
      = [mfg_mac_name, [102, 111, 111, 45, 98, 97, 114]] := by
  refine ⟨fun l => name_loop_idem l, normalized_name_idem, ?_, by decide, by decide, by decide⟩
  intro key rest room hne h0 hroom
  have h := name_loop_key key rest room hne h0 hroom
  rw [name_char_map] at h
  exact ⟨h, name_loop_idem _ room _ h⟩

theorem name_normalization_idempotent_witness :
    name_loop (MFG_MAC ++ 0 :: [49, 10]) 1024 = some (normalized_name MFG_MAC ++ 0 :: [49, 10]) ∧
      name_loop (normalized_name MFG_MAC ++ 0 :: [49, 10]) 1024
        = some (normalized_name MFG_MAC ++ 0 :: [49, 10]) :=
  name_normalization_idempotent.2.2.1 MFG_MAC [49, 10] 1024 (by decide) (by decide) (by decide)

/-! ## Runs that break a property -/

/-- Claim C12: the code breaks it. `ret` is initialised with `-EINVAL` and then
overwritten by the result of the read, so a scan that registers nothing returns
1024, not `-EINVAL`: on the blob of 1024 bytes `0xFF` and on the blob `#c\n`
followed by `0xFF` bytes, no cell is registered and the call returns 1024. -/
theorem add_cells_empty_scan_returns_read_size :
    (padded [] 255).length = 1024 ∧
      (adtran_add_cells 1024 true (fun _ => none) (fun _ _ => 0) (padded [] 255)).cells = [] ∧
      (adtran_add_cells 1024 true (fun _ => none) (fun _ _ => 0) (padded [] 255)).status
        = Status.ret 1024 ∧
      (adtran_add_cells 1024 true (fun _ => none) (fun _ _ => 0)
        (padded [35, 99, 10] 255)).cells = [] ∧
      (adtran_add_cells 1024 true (fun _ => none) (fun _ _ => 0)
        (padded [35, 99, 10] 255)).status = Status.ret 1024 ∧
      Status.ret 1024 ≠ Status.ret (-EINVAL) := by
  decide

/-- Claim C15: the code breaks it on the blob `FOO\nBAR=1\n\xFF...`. The line `FOO`
has no `=`, but the search for `=` is not bounded by the line and finds the `=`
of the next line: the line is not skipped, the cell registered is named
`foo\nbar`, a name with a `0x0A` in it, and not `bar` as on the blob without the
line `FOO`. -/
theorem add_cells_line_without_equals_not_skipped :
    (adtran_add_cells 1024 true (fun _ => none) (fun _ _ => 0)
        (padded [70, 79, 79, 10, 66, 65, 82, 61, 49, 10] 255)).cells
        = [⟨[102, 111, 111, 10, 98, 97, 114], 8, 1, false, none⟩] ∧
      (adtran_add_cells 1024 true (fun _ => none) (fun _ _ => 0)
        (padded [66, 65, 82, 61, 49, 10] 255)).cells
        = [⟨[98, 97, 114], 4, 1, false, none⟩] := by
  decide

/-- Claim C16: the code breaks it on the 1024-byte blob `A=1\nB=2` followed by
`0xFF` bytes, whose second line has an `=` and no `0x0A` (and no NUL) after it
inside the blob. The search for the end of the value leaves the array: with a
`0x0A` right behind the array a descriptor for `b` is registered, with 1018
bytes, and with nothing readable behind the array the run faults instead of
ending the loop. -/
theorem add_cells_unterminated_value_registered :
    (padded [65, 61, 49, 10, 66, 61, 50] 255).length = 1024 ∧
      (adtran_add_cells 1024 true (fun _ => none) (fun _ _ => 0)
        (padded [65, 61, 49, 10, 66, 61, 50] 255 ++ [10])).cells
        = [⟨[97], 2, 1, false, none⟩, ⟨[98], 6, 1018, false, none⟩] ∧
      (adtran_add_cells 1024 true (fun _ => none) (fun _ _ => 0)
        (padded [65, 61, 49, 10, 66, 61, 50] 255)).status = Status.fault ∧
      (adtran_add_cells 1024 true (fun _ => none) (fun _ _ => 0)
        (padded [65, 61, 49, 10, 66, 61, 50, 0] 255)).cells = [⟨[97], 2, 1, false, none⟩] ∧
      (adtran_add_cells 1024 true (fun _ => none) (fun _ _ => 0)
        (padded [65, 61, 49, 10, 66, 61, 50, 0] 255)).status = Status.ret 0 := by
  decide

/-- Claim C17: the code breaks it on the sample of the claim,
`=AB\nMFG_MAC=00:11:22:33:44:50\n\xFF`. The key of the first line is empty, the
`do ... while` loop handles the byte at the line start and then goes on while
the next byte is not NUL: through the value `AB` and the lines after it. With
NUL bytes after the sentinel the value is left as `ab`, the key of the second
line reads `mfg-mac` when it is compared with `MFG_MAC`, and its cell gets no
post-processor; with `0xFF` bytes up to the end of the array the loop leaves the
array. Without the first line the second one gets the post-processor. -/
theorem add_cells_empty_key_normalizes_on :
    (adtran_add_cells 1024 true (fun _ => none) (fun _ _ => 0)
        (padded ([61, 65, 66, 10] ++ MFG_MAC ++ [61] ++ mac_sample 48 ++ [10, 255]) 0)).cells
        = [⟨[], 1, 2, false, none⟩, ⟨mfg_mac_name, 12, 17, false, none⟩] ∧
      ((adtran_add_cells 1024 true (fun _ => none) (fun _ _ => 0)
        (padded ([61, 65, 66, 10] ++ MFG_MAC ++ [61] ++ mac_sample 48 ++ [10, 255]) 0)).mfginfo.take 12)
        = [0, 97, 98, 10] ++ mfg_mac_name ++ [0] ∧
      (adtran_add_cells 1024 true (fun _ => none) (fun _ _ => 0)
        (padded ([61, 65, 66, 10] ++ MFG_MAC ++ [61] ++ mac_sample 48 ++ [10, 255]) 255)).status
        = Status.fault ∧
      (adtran_add_cells 1024 true (fun _ => none) (fun _ _ => 0)
        (padded (MFG_MAC ++ [61] ++ mac_sample 48 ++ [10, 255]) 255)).cells
        = [⟨mfg_mac_name, 8, 17, true, none⟩] := by
  decide

/-! ## Progress of the loop and rejected registrations -/

theorem nextline_progress (mem : List Nat) (c : Nat) (ret : Int)
    (cells : List nvmem_cell_info) :
    (∃ st m, st ≠ Status.fuel ∧ nextline mem c ret cells = Step.stop ⟨cells, st, m⟩) ∨
    (∃ n, c ≤ n ∧ n < mem.length ∧ nextline mem c ret cells = Step.next mem (n + 1) ret cells) := by
  unfold nextline
  cases h : strchr mem c 10 with
  | found n =>
    right
    have hb := strchr_found_bounds mem c 10 n h
    exact ⟨n, hb.1, hb.2, rfl⟩
  | null => left; exact ⟨Status.ret ret, mem, fun h => Status.noConfusion h, rfl⟩
  | fault => left; exact ⟨Status.fault, mem, fun h => Status.noConfusion h, rfl⟩

/-- One pass of the loop, with the part the registration plays set apart: the
pass ends the loop, or it moves to the next line, or it submits one descriptor,
and only then does the answer of the registration matter. The cursor moves
forward, stays inside the memory, and a submitted descriptor lies between the
old and the new cursor. -/
theorem loop_body_submit (child : List Nat → Option Nat)
    (mem : List Nat) (c : Nat) (ret : Int) (cells : List nvmem_cell_info) :
    (∃ st m, st ≠ Status.fuel ∧
      ∀ add, loop_body child add mem c ret cells = Step.stop ⟨cells, st, m⟩) ∨
    (∃ n, c ≤ n ∧ n < mem.length ∧
      ∀ add, loop_body child add mem c ret cells = Step.next mem (n + 1) ret cells) ∨
    (∃ info mem2 n, mem2.length = mem.length ∧ c < info.offset ∧
      info.offset + info.bytes = n ∧ n < mem.length ∧
      ∀ add, loop_body child add mem c ret cells
        = if add cells info ≠ 0 then Step.stop ⟨cells, Status.ret (add cells info), mem2⟩
          else Step.next mem2 (n + 1) (add cells info) (cells ++ [info])) := by
  cases hb : mem[c]? with
  | none =>
    left
    refine ⟨Status.fault, mem, fun h => Status.noConfusion h, fun add => ?_⟩
    unfold loop_body
    rw [hb]
  | some b =>
    by_cases h255 : b = 255
    · left
      refine ⟨Status.ret ret, mem, fun h => Status.noConfusion h, fun add => ?_⟩
      unfold loop_body
      rw [hb]
      simp only [h255, if_true]
    · by_cases h35 : b = 35
      · have key : ∀ add, loop_body child add mem c ret cells = nextline mem c ret cells := by
          intro add
          unfold loop_body
          rw [hb]
          simp only []
          rw [if_neg h255, if_pos h35]
        rcases nextline_progress mem c ret cells with ⟨st, m, hst, h⟩ | ⟨n, h1, h2, h⟩
        · left; exact ⟨st, m, hst, fun add => by rw [key, h]⟩
        · right; left; exact ⟨n, h1, h2, fun add => by rw [key, h]⟩
      · cases he : strchr mem c 61 with
        | fault =>
          left
          refine ⟨Status.fault, mem, fun h => Status.noConfusion h, fun add => ?_⟩
          unfold loop_body
          rw [hb]
          simp only [h255, h35, if_false, he]
        | null =>
          have key : ∀ add, loop_body child add mem c ret cells = nextline mem c ret cells := by
            intro add
            unfold loop_body
            rw [hb]
            simp only [h255, h35, if_false, he]
          rcases nextline_progress mem c ret cells with ⟨st, m, hst, h⟩ | ⟨n, h1, h2, h⟩
          · left; exact ⟨st, m, hst, fun add => by rw [key, h]⟩
          · right; left; exact ⟨n, h1, h2, fun add => by rw [key, h]⟩
        | found e =>
          by_cases hsz : MFGINFO_SIZE ≤ e
          · left
            refine ⟨Status.fault, mem, fun h => Status.noConfusion h, fun add => ?_⟩
            unfold loop_body
            rw [hb]
            simp only [h255, h35, if_false, he, hsz, if_true]
          · cases hs : name_loop ((mem.set e 0).drop c) (MFGINFO_SIZE - c) with
            | none =>
              left
              refine ⟨Status.fault, mem.set e 0, fun h => Status.noConfusion h, fun add => ?_⟩
              unfold loop_body
              rw [hb]
              simp only [h255, h35, if_false, he, hsz, hs]
            | some s =>
              cases hn : strchr ((mem.set e 0).take c ++ s) (e + 1) 10 with
              | fault =>
                left
                refine ⟨Status.fault, (mem.set e 0).take c ++ s,
                  fun h => Status.noConfusion h, fun add => ?_⟩
                unfold loop_body
                rw [hb]
                simp only [h255, h35, if_false, he, hsz, hs, hn]
              | null =>
                left
                refine ⟨Status.ret ret, (mem.set e 0).take c ++ s,
                  fun h => Status.noConfusion h, fun add => ?_⟩
                unfold loop_body
                rw [hb]
                simp only [h255, h35, if_false, he, hsz, hs, hn]
              | found n =>
                right; right
                have hbe := strchr_found_bounds mem c 61 e he
                have hbn := strchr_found_bounds _ (e + 1) 10 n hn
                have hlen := tokenized_length mem c e s he hs
                refine ⟨⟨cstr ((mem.set e 0).take c ++ s) c, e + 1, n - (e + 1),
                    decide (cstr (mem.set e 0) c = MFG_MAC),
                    child (cstr ((mem.set e 0).take c ++ s) c)⟩,
                  (mem.set e 0).take c ++ s, n, hlen, ?_, ?_, ?_, fun add => ?_⟩
                · show c < e + 1
                  omega
                · show e + 1 + (n - (e + 1)) = n
                  omega
                · rw [← hlen]; exact hbn.2
                · unfold loop_body
                  rw [hb]
                  simp only [h255, h35, if_false, he, hsz, hs, hn]

/-- The loop only adds cells behind those it starts with. -/
theorem while_loop_cells_prefix (child : List Nat → Option Nat)
    (add : List nvmem_cell_info → nvmem_cell_info → Int) :
    ∀ (fuel : Nat) (mem : List Nat) (c : Nat) (ret : Int) (cells : List nvmem_cell_info),
      ∃ D, (while_loop child add fuel mem c ret cells).cells = cells ++ D := by
  intro fuel
  induction fuel with
  | zero => intro mem c ret cells; exact ⟨[], by simp [while_loop]⟩
  | succ f ih =>
    intro mem c ret cells
    rw [while_loop]
    rcases loop_body_submit child mem c ret cells with ⟨st, m, _, h⟩ | ⟨n, _, _, h⟩ |
      ⟨info, mem2, n, _, _, _, _, h⟩
    · rw [h add]; exact ⟨[], by simp⟩
    · rw [h add]; exact ih _ _ _ _
    · rw [h add]
      by_cases hr : add cells info = 0
      · simp only [ne_eq, hr, not_true_eq_false, if_false]
        obtain ⟨D, hD⟩ := ih mem2 (n + 1) 0 (cells ++ [info])
        exact ⟨info :: D, by rw [hD]; simp⟩
      · simp only [ne_eq, hr, not_false_eq_true, if_true]
        exact ⟨[], by simp⟩

/-- When the registration accepts the descriptors `A` and rejects the next one,
`d`, the loop ends there: the cells are those of `A` and the return code is the
answer to `d`. The descriptors are told by the run in which none is rejected. -/
theorem while_loop_rejection (child : List Nat → Option Nat)
    (add : List nvmem_cell_info → nvmem_cell_info → Int) :
    ∀ (fuel : Nat) (mem : List Nat) (c : Nat) (ret : Int) (cells A : List nvmem_cell_info)
      (d : nvmem_cell_info) (B : List nvmem_cell_info),
      (while_loop child (fun _ _ => 0) fuel mem c ret cells).cells = cells ++ (A ++ d :: B) →
      (∀ A1 x A2, A = A1 ++ x :: A2 → add (cells ++ A1) x = 0) →
      add (cells ++ A) d ≠ 0 →
      (while_loop child add fuel mem c ret cells).cells = cells ++ A ∧
        (while_loop child add fuel mem c ret cells).status
          = Status.ret (add (cells ++ A) d) := by
  intro fuel
  induction fuel with
  | zero =>
    intro mem c ret cells A d B hD _ _
    simp [while_loop] at hD
  | succ f ih =>
    intro mem c ret cells A d B hD hacc hrej
    rw [while_loop] at hD ⊢
    rcases loop_body_submit child mem c ret cells with ⟨st, m, _, h⟩ | ⟨n, _, _, h⟩ |
      ⟨info, mem2, n, _, _, _, _, h⟩
    · rw [h] at hD
      simp at hD
    · rw [h] at hD ⊢
      exact ih _ _ _ _ A d B hD hacc hrej
    · rw [h] at hD ⊢
      simp only [ne_eq, not_true_eq_false, if_false] at hD
      obtain ⟨D, hpre⟩ := while_loop_cells_prefix child (fun _ _ => 0) f mem2 (n + 1) 0
        (cells ++ [info])
      have hlist : info :: D = A ++ d :: B := by
        have : cells ++ (info :: D) = cells ++ (A ++ d :: B) := by
          rw [← hD, hpre]; simp
        exact List.append_cancel_left this
      cases A with
      | nil =>
        have hd : info = d := by
          simp only [List.nil_append, List.cons.injEq] at hlist
          exact hlist.1
        subst hd
        simp only [List.append_nil] at hrej ⊢
        simp only [ne_eq, hrej, not_false_eq_true, if_true, and_self]
      | cons x A =>
        have hx : info = x ∧ D = A ++ d :: B := by
          simpa using hlist
        obtain ⟨hx1, hx2⟩ := hx
        subst hx1
        have h0 : add cells info = 0 := by
          have := hacc [] info A rfl
          simpa using this
        simp only [ne_eq, h0, not_true_eq_false, if_false]
        have hD2 : (while_loop child (fun _ _ => 0) f mem2 (n + 1) 0 (cells ++ [info])).cells
            = (cells ++ [info]) ++ (A ++ d :: B) := by
          rw [hD]; simp
        have hacc2 : ∀ A1 y A2, A = A1 ++ y :: A2 → add ((cells ++ [info]) ++ A1) y = 0 := by
          intro A1 y A2 hA
          have := hacc (info :: A1) y A2 (by rw [hA]; rfl)
          simpa using this
        have hrej2 : add ((cells ++ [info]) ++ A) d ≠ 0 := by
          simpa using hrej
        have := ih mem2 (n + 1) 0 (cells ++ [info]) A d B hD2 hacc2 hrej2
        simpa using this

/-- Claim C11: let the descriptors the scan of a blob submits, when none is
rejected, be `A`, then `d`, then `B`. If the registration accepts those of `A`
and rejects `d`, the `k`-th one with `k = |A| + 1`, with the error `e`, then
`adtran_add_cells` returns exactly `e` and the cells registered are those of
`A`: none is rolled back, and nothing depends on what the registration would
answer to a descriptor of `B`. -/
theorem add_cells_rejection_aborts (rd : Int) (np : Bool) (child : List Nat → Option Nat)
    (add : List nvmem_cell_info → nvmem_cell_info → Int) (mem : List Nat)
    (A : List nvmem_cell_info) (d : nvmem_cell_info) (B : List nvmem_cell_info) (e : Int)
    (hD : (adtran_add_cells rd np child (fun _ _ => 0) mem).cells = A ++ d :: B)
    (hacc : ∀ A1 x A2, A = A1 ++ x :: A2 → add A1 x = 0)
    (hrej : add A d = e) (he : e ≠ 0) :
    (adtran_add_cells rd np child add mem).cells = A ∧
      (adtran_add_cells rd np child add mem).status = Status.ret e := by
  unfold adtran_add_cells at hD ⊢
  split_ifs at hD ⊢
  · simp at hD
  · simp at hD
  · simp at hD
  · have := while_loop_rejection child add (mem.length + 1) mem 0 rd [] A d B
      (by simpa using hD) (by simpa using hacc) (by simp only [List.nil_append]; rw [hrej]; exact he)
    simp only [List.nil_append] at this
    rw [hrej] at this
    exact this

theorem add_cells_rejection_aborts_witness :
    (adtran_add_cells 1024 true (fun _ => none)
        (fun cs _ => if cs.length = 1 then -17 else 0)
        (padded [88, 61, 10, 89, 61, 49, 10, 90, 61, 50, 10] 255)).cells
        = [⟨[120], 2, 0, false, none⟩] ∧
      (adtran_add_cells 1024 true (fun _ => none)
        (fun cs _ => if cs.length = 1 then -17 else 0)
        (padded [88, 61, 10, 89, 61, 49, 10, 90, 61, 50, 10] 255)).status = Status.ret (-17) :=
  add_cells_rejection_aborts 1024 true (fun _ => none)
    (fun cs _ => if cs.length = 1 then -17 else 0)
    (padded [88, 61, 10, 89, 61, 49, 10, 90, 61, 50, 10] 255)
    [⟨[120], 2, 0, false, none⟩] ⟨[121], 5, 1, false, none⟩ [⟨[122], 9, 1, false, none⟩] (-17)
    (by decide)
    (by
      intro A1 x A2 h
      cases A1 with
      | nil => rfl
      | cons a A1 => simp at h)
    (by decide) (by decide)

/-- The loop does not run out of passes when it has more of them than bytes are
left from the cursor to the end of the memory. -/
theorem while_loop_terminates (child : List Nat → Option Nat)
    (add : List nvmem_cell_info → nvmem_cell_info → Int) :
    ∀ (fuel : Nat) (mem : List Nat) (c : Nat) (ret : Int) (cells : List nvmem_cell_info),
      c ≤ mem.length → mem.length - c < fuel →
      (while_loop child add fuel mem c ret cells).status ≠ Status.fuel := by
  intro fuel
  induction fuel with
  | zero => intro mem c ret cells _ h; omega
  | succ f ih =>
    intro mem c ret cells hc hf
    rw [while_loop]
    rcases loop_body_submit child mem c ret cells with ⟨st, m, hst, h⟩ | ⟨n, h1, h2, h⟩ |
      ⟨info, mem2, n, hlen, h1, h2, h3, h⟩
    · rw [h add]; exact hst
    · rw [h add]
      exact ih _ _ _ _ (by omega) (by omega)
    · rw [h add]
      by_cases hr : add cells info = 0
      · simp only [ne_eq, hr, not_true_eq_false, if_false]
        exact ih _ _ _ _ (by omega) (by omega)
      · simp only [ne_eq, hr, not_false_eq_true, if_true]
        exact fun h => Status.noConfusion h

/-- The value of every cell the loop adds starts behind the end of the value of
every cell before it. -/
theorem while_loop_pairwise (child : List Nat → Option Nat)
    (add : List nvmem_cell_info → nvmem_cell_info → Int) :
    ∀ (fuel : Nat) (mem : List Nat) (c : Nat) (ret : Int) (cells : List nvmem_cell_info),
      cells.Pairwise (fun a b => a.offset + a.bytes < b.offset) →
      (∀ x ∈ cells, x.offset + x.bytes < c) →
      (while_loop child add fuel mem c ret cells).cells.Pairwise
        (fun a b => a.offset + a.bytes < b.offset) := by
  intro fuel
  induction fuel with
  | zero => intro mem c ret cells hp _; exact hp
  | succ f ih =>
    intro mem c ret cells hp hend
    rw [while_loop]
    rcases loop_body_submit child mem c ret cells with ⟨st, m, hst, h⟩ | ⟨n, h1, h2, h⟩ |
      ⟨info, mem2, n, hlen, h1, h2, h3, h⟩
    · rw [h add]; exact hp
    · rw [h add]
      exact ih _ _ _ _ hp (fun x hx => by have := hend x hx; omega)
    · rw [h add]
      by_cases hr : add cells info = 0
      · simp only [ne_eq, hr, not_true_eq_false, if_false]
        apply ih
        · rw [List.pairwise_append]
          refine ⟨hp, List.pairwise_singleton _ _, ?_⟩
          intro a ha b hb
          rw [List.mem_singleton.1 hb]
          have := hend a ha
          omega
        · intro x hx
          rcases List.mem_append.1 hx with hx | hx
          · have := hend x hx; omega
          · rw [List.mem_singleton.1 hx]; omega
      · simp only [ne_eq, hr, not_false_eq_true, if_true]
        exact hp

/-- Claim C20: for every blob, and whatever lies behind the array, the scan loop
of `adtran_add_cells` ends within the passes it is given, one more than there
are bytes; every pass that does not end the loop moves the cursor `c` strictly
forward, inside the memory, whose length it keeps; and each registered cell's
offset is greater than offset + bytes of every cell registered before it, so
offsets increase strictly and the value spans are pairwise disjoint. -/
theorem scan_terminates_with_increasing_offsets (rd : Int) (np : Bool)
    (child : List Nat → Option Nat)
    (add : List nvmem_cell_info → nvmem_cell_info → Int) (mem : List Nat) :
    (adtran_add_cells rd np child add mem).status ≠ Status.fuel ∧
    (adtran_add_cells rd np child add mem).cells.Pairwise
      (fun a b => a.offset + a.bytes < b.offset) ∧
    (∀ m c ret cells m1 c1 ret1 cells1,
      loop_body child add m c ret cells = Step.next m1 c1 ret1 cells1 →
      c < c1 ∧ c1 ≤ m.length ∧ m1.length = m.length) := by
  refine ⟨?_, ?_, ?_⟩
  · unfold adtran_add_cells
    split_ifs
    · exact fun h => Status.noConfusion h
    · exact fun h => Status.noConfusion h
    · exact fun h => Status.noConfusion h
    · exact while_loop_terminates child add _ mem 0 rd [] (Nat.zero_le _) (by omega)
  · unfold adtran_add_cells
    split_ifs
    · exact List.Pairwise.nil
    · exact List.Pairwise.nil
    · exact List.Pairwise.nil
    · exact while_loop_pairwise child add _ mem 0 rd [] List.Pairwise.nil
        (fun x hx => by simp at hx)
  · intro m c ret cells m1 c1 ret1 cells1 hstep
    rcases loop_body_submit child m c ret cells with ⟨st, m0, _, h⟩ | ⟨n, h1, h2, h⟩ |
      ⟨info, mem2, n, hlen, h1, h2, h3, h⟩
    · rw [h add] at hstep
      exact Step.noConfusion hstep
    · rw [h add] at hstep
      simp only [Step.next.injEq] at hstep
      obtain ⟨hm, hc, _, _⟩ := hstep
      subst hm hc
      exact ⟨by omega, by omega, rfl⟩
    · rw [h add] at hstep
      by_cases hr : add cells info = 0
      · simp only [ne_eq, hr, not_true_eq_false, if_false, Step.next.injEq] at hstep
        obtain ⟨hm, hc, _, _⟩ := hstep
        subst hm hc
        exact ⟨by omega, by omega, hlen⟩
      · simp only [ne_eq, hr, not_false_eq_true, if_true] at hstep
        exact Step.noConfusion hstep

theorem scan_terminates_with_increasing_offsets_witness :
    (adtran_add_cells 1024 true (fun _ => none) (fun _ _ => 0)
        (padded [88, 61, 10, 89, 61, 49, 10] 255)).status ≠ Status.fuel ∧
      (adtran_add_cells 1024 true (fun _ => none) (fun _ _ => 0)
        (padded [88, 61, 10, 89, 61, 49, 10] 255)).cells.Pairwise
          (fun a b => a.offset + a.bytes < b.offset) ∧
      (0 < 3 ∧ 3 ≤ [88, 61, 10, 255].length ∧ [120, 0, 10, 255].length = [88, 61, 10, 255].length) :=
  ⟨(scan_terminates_with_increasing_offsets 1024 true (fun _ => none) (fun _ _ => 0)
      (padded [88, 61, 10, 89, 61, 49, 10] 255)).1,
   (scan_terminates_with_increasing_offsets 1024 true (fun _ => none) (fun _ _ => 0)
      (padded [88, 61, 10, 89, 61, 49, 10] 255)).2.1,
   (scan_terminates_with_increasing_offsets 1024 true (fun _ => none) (fun _ _ => 0)
      (padded [88, 61, 10, 89, 61, 49, 10] 255)).2.2 [88, 61, 10, 255] 0 1024 []
      [120, 0, 10, 255] 3 0 [⟨[120], 2, 0, false, none⟩] rfl⟩

end Adtran
